import Mathlib

/- Verification development for the intrusive doubly linked list of
   src/libfplutil/include/fplutil/intrusive_list.h (namespace fpl).

   The embedding has two layers.

   Pointer layer: nodes are identified by natural number ids and a Heap maps
   every id to the current value of its two link fields.  Every pointer
   statement of the C++ source is translated to one heap update, in source
   order, reading the heap as it stands when the statement executes.  This
   layer models intrusive_list_node (remove, in_list, clear, insert_before,
   insert_after, move, move assignment) and the container operations that are
   pure pointer surgery (push_back, push_front, pop_front, pop_back, swap,
   splice, container move assignment).

   Sequence layer: the whole-list algorithms merge, unique and sort are loops
   that act on the chain exclusively through the public remove and insert
   helpers, so they are modelled as functions on the sequence of stored
   elements; each equation of those functions is annotated with the loop
   branch of the source it translates. -/

namespace Fpl

/-- State of one intrusive_list_node (source lines 77-156): the two link
fields next_ and previous_.  In the C++ source these are pointers to nodes;
here nodes carry natural number ids and the fields hold the id of the
neighbour. -/
structure intrusive_list_node where
  next_ : Nat
  previous_ : Nat
deriving DecidableEq

/-- A heap assigns to every node id the current value of its link fields. -/
abbrev Heap := Nat → intrusive_list_node

/-- Heap update modelling the single C++ assignment n->next_ = v. -/
def setNext (h : Heap) (n v : Nat) : Heap :=
  fun m => if m = n then { h n with next_ := v } else h m

/-- Heap update modelling the single C++ assignment n->previous_ = v. -/
def setPrev (h : Heap) (n v : Nat) : Heap :=
  fun m => if m = n then { h n with previous_ := v } else h m

theorem setNext_next_ (h : Heap) (n v m : Nat) :
    (setNext h n v m).next_ = if m = n then v else (h m).next_ := by
  by_cases hm : m = n <;> simp [setNext, hm]

theorem setNext_previous_ (h : Heap) (n v m : Nat) :
    (setNext h n v m).previous_ = (h m).previous_ := by
  by_cases hm : m = n <;> simp [setNext, hm]

theorem setPrev_previous_ (h : Heap) (n v m : Nat) :
    (setPrev h n v m).previous_ = if m = n then v else (h m).previous_ := by
  by_cases hm : m = n <;> simp [setPrev, hm]

theorem setPrev_next_ (h : Heap) (n v m : Nat) :
    (setPrev h n v m).next_ = (h m).next_ := by
  by_cases hm : m = n <;> simp [setPrev, hm]

theorem setNext_self_eq (h : Heap) (n : Nat) : setNext h n ((h n).next_) = h := by
  funext m
  by_cases hm : m = n <;> simp [setNext, hm]

theorem setPrev_self_eq (h : Heap) (n : Nat) : setPrev h n ((h n).previous_) = h := by
  funext m
  by_cases hm : m = n <;> simp [setPrev, hm]

/-- Source line 97: bool in_list() const, true iff next_ differs from this. -/
def intrusive_list_node.in_list (h : Heap) (n : Nat) : Bool :=
  (h n).next_ != n

/-- Source lines 126-129: clear() sets next_ = this and previous_ = this. -/
def intrusive_list_node.clear (h : Heap) (n : Nat) : Heap :=
  setPrev (setNext h n n) n n

/-- Source lines 100-105: remove() executes next_->previous_ = previous_,
then previous_->next_ = next_, then clear(), each statement reading the heap
left by the previous one. -/
def intrusive_list_node.remove (h : Heap) (n : Nat) : Heap :=
  let h1 := setPrev h ((h n).next_) ((h n).previous_)
  let h2 := setNext h1 ((h1 n).previous_) ((h1 n).next_)
  intrusive_list_node.clear h2 n

/-- Source lines 131-136: insert_before(node) run on node id self splices
node in directly before self: previous_->next_ = node, node->previous_ =
previous_, node->next_ = this, previous_ = node. -/
def intrusive_list_node.insert_before (h : Heap) (self node : Nat) : Heap :=
  let h1 := setNext h ((h self).previous_) node
  let h2 := setPrev h1 node ((h1 self).previous_)
  let h3 := setNext h2 node self
  setPrev h3 self node

/-- Source lines 138-143: insert_after(node) run on node id self splices node
in directly after self: next_->previous_ = node, node->next_ = next_,
node->previous_ = this, next_ = node. -/
def intrusive_list_node.insert_after (h : Heap) (self node : Nat) : Heap :=
  let h1 := setPrev h ((h self).next_) node
  let h2 := setNext h1 node ((h1 self).next_)
  let h3 := setPrev h2 node self
  setNext h3 self node

/-- Source lines 111-124: the private move(other).  When other is in a list
the receiver takes over the links of other and the neighbours of other are
repointed at the receiver, then other is cleared; otherwise the receiver is
made self linked. -/
def intrusive_list_node.move (h : Heap) (self other : Nat) : Heap :=
  if (h other).next_ != other then
    let h1 := setNext h self ((h other).next_)
    let h2 := setPrev h1 self ((h1 other).previous_)
    let h3 := setPrev h2 ((h2 other).next_) self
    let h4 := setNext h3 ((h3 other).previous_) self
    intrusive_list_node.clear h4 other
  else
    setPrev (setNext h self self) self self

/-- Source lines 89-94: the move assignment operator of intrusive_list_node
first unlinks the receiver (next_->previous_ = previous_; previous_->next_ =
next_, without clearing) and then runs move(other). -/
def intrusive_list_node.move_assign (h : Heap) (self other : Nat) : Heap :=
  let h1 := setPrev h ((h self).next_) ((h self).previous_)
  let h2 := setNext h1 ((h1 self).previous_) ((h1 self).next_)
  intrusive_list_node.move h2 self other

/-- Source lines 241-245: push_back(value) asserts that the node of value is
not in a list and runs data_.insert_before(value_node); hd is the id of the
header node data_. -/
def intrusive_list.push_back (h : Heap) (hd n : Nat) : Heap :=
  intrusive_list_node.insert_before h hd n

/-- Source lines 233-237: push_front(value) runs data_.insert_after. -/
def intrusive_list.push_front (h : Heap) (hd n : Nat) : Heap :=
  intrusive_list_node.insert_after h hd n

/-- Source line 239: pop_front() runs data_.next_->remove(). -/
def intrusive_list.pop_front (h : Heap) (hd : Nat) : Heap :=
  intrusive_list_node.remove h ((h hd).next_)

/-- Source line 247: pop_back() runs data_.previous_->remove(). -/
def intrusive_list.pop_back (h : Heap) (hd : Nat) : Heap :=
  intrusive_list_node.remove h ((h hd).previous_)

/-- Source lines 320-325: swap(other) is four std::swap calls on
data_.next_, data_.previous_, data_.next_->previous_ and
data_.previous_->next_ of the two headers a and b.  Each std::swap reads both
lvalues of its line from the heap produced by the previous line and then
exchanges them. -/
def intrusive_list.swap (h : Heap) (a b : Nat) : Heap :=
  let h1 := setNext (setNext h a ((h b).next_)) b ((h a).next_)
  let h2 := setPrev (setPrev h1 a ((h1 b).previous_)) b ((h1 a).previous_)
  let p := (h2 a).next_
  let q := (h2 b).next_
  let h3 := setPrev (setPrev h2 p ((h2 q).previous_)) q ((h2 p).previous_)
  let r := (h3 a).previous_
  let s := (h3 b).previous_
  setNext (setNext h3 r ((h3 s).next_)) s ((h3 r).next_)

/-- Source lines 342-357: splice(pos, first, last).  If first == last nothing
happens; otherwise the three locals before_pos, before_first and before_last
are read from the incoming heap and the six listed assignments are performed
(their right hand sides are those locals or parameters, so no later statement
re-reads a mutated field). -/
def intrusive_list.splice (h : Heap) (pos first last : Nat) : Heap :=
  if first = last then h
  else
    let bp := (h pos).previous_
    let bf := (h first).previous_
    let bl := (h last).previous_
    let h1 := setNext h bp first
    let h2 := setNext h1 bf last
    let h3 := setNext h2 bl pos
    let h4 := setPrev h3 pos bl
    let h5 := setPrev h4 first bp
    setPrev h5 last bf

/-- Source lines 190-195: the container move assignment operator runs
data_ = std::move(other.data_), i.e. intrusive_list_node::move_assign of the
two header nodes.  The move constructor (line 190) first default-constructs
data_ self linked and then runs the same assignment. -/
def intrusive_list.move_assign (h : Heap) (dst src : Nat) : Heap :=
  intrusive_list_node.move_assign h dst src

/-- FChain f h a xs b holds when, following the field f (next_ or previous_)
through the heap h starting at node a, one visits exactly the nodes xs and
then arrives at b.  This is the walk performed by the iterators of
intrusive_list (source lines 441-503). -/
def FChain (f : intrusive_list_node → Nat) (h : Heap) : Nat → List Nat → Nat → Prop
  | a, [], b => a = b
  | a, x :: xs, b => a = x ∧ FChain f h (f (h x)) xs b

def FChain.dec (f : intrusive_list_node → Nat) (h : Heap) :
    (xs : List Nat) → (a b : Nat) → Decidable (FChain f h a xs b)
  | [], a, b => decidable_of_iff (a = b) (by simp [FChain])
  | x :: xs, a, b =>
    have : Decidable (FChain f h (f (h x)) xs b) := FChain.dec f h xs (f (h x)) b
    decidable_of_iff (a = x ∧ FChain f h (f (h x)) xs b) (by simp [FChain])

instance (f : intrusive_list_node → Nat) (h : Heap) (a : Nat) (xs : List Nat) (b : Nat) :
    Decidable (FChain f h a xs b) := FChain.dec f h xs a b

/-- The contents of the list whose header (sentinel) node is hd are exactly
the nodes xs, in that order: walking next_ from the header visits hd then xs
and returns to hd, and walking previous_ visits them backwards.  This is the
observable state of an intrusive_list (begin/end iteration, source lines
203-231, and the reverse view). -/
def IsList (h : Heap) (hd : Nat) (xs : List Nat) : Prop :=
  FChain intrusive_list_node.next_ h hd (hd :: xs) hd ∧
    FChain intrusive_list_node.previous_ h hd (hd :: xs.reverse) hd

instance (h : Heap) (hd : Nat) (xs : List Nat) : Decidable (IsList h hd xs) :=
  inferInstanceAs (Decidable (And _ _))

theorem FChain_nil {f h a b} : FChain f h a [] b ↔ a = b := Iff.rfl

theorem FChain_cons {f h a x xs b} :
    FChain f h a (x :: xs) b ↔ a = x ∧ FChain f h (f (h x)) xs b := Iff.rfl

theorem FChain_append {f h a b} (xs ys : List Nat) :
    FChain f h a (xs ++ ys) b ↔ ∃ c, FChain f h a xs c ∧ FChain f h c ys b := by
  induction xs generalizing a with
  | nil =>
    simp only [List.nil_append, FChain_nil]
    constructor
    · intro hy; exact ⟨a, rfl, hy⟩
    · rintro ⟨c, rfl, hy⟩; exact hy
  | cons x xs ih =>
    simp only [List.cons_append, FChain_cons, ih]
    constructor
    · rintro ⟨rfl, c, h1, h2⟩; exact ⟨c, ⟨rfl, h1⟩, h2⟩
    · rintro ⟨c, ⟨rfl, h1⟩, h2⟩; exact ⟨rfl, c, h1, h2⟩

theorem FChain_singleton {f h a x b} : FChain f h a [x] b ↔ a = x ∧ f (h x) = b := by
  simp [FChain]

theorem FChain_snoc {f h a b} (xs : List Nat) (t : Nat) :
    FChain f h a (xs ++ [t]) b ↔ FChain f h a xs t ∧ f (h t) = b := by
  rw [FChain_append]
  constructor
  · rintro ⟨c, h1, h2⟩
    rw [FChain_singleton] at h2
    obtain ⟨rfl, h2⟩ := h2
    exact ⟨h1, h2⟩
  · rintro ⟨h1, h2⟩
    exact ⟨t, h1, FChain_singleton.mpr ⟨rfl, h2⟩⟩

theorem FChain_frame {f : intrusive_list_node → Nat} {h h2 : Heap} {a b : Nat}
    {xs : List Nat} (hsame : ∀ x ∈ xs, f (h2 x) = f (h x))
    (hc : FChain f h a xs b) : FChain f h2 a xs b := by
  induction xs generalizing a with
  | nil => exact hc
  | cons x xs ih =>
    obtain ⟨rfl, hc⟩ := hc
    refine ⟨rfl, ?_⟩
    rw [hsame a (by simp)]
    exact ih (fun y hy => hsame y (by simp [hy])) hc

theorem FChain_head {f h a x xs b} (hc : FChain f h a (x :: xs) b) : a = x := hc.1

/-- Source lines 359-376: merge(other, compare).  The loop walks this with
this_iter and other with other_iter.  The state is the pair (unprocessed
suffix of this, remaining other); the emitted prefix is implicit in the
recursion.  First equation: this_iter == end(), so the remaining range of
other is spliced at end() and other is left empty.  Second equation:
other_iter == other.end(), the loop returns (every element of other was
already removed, so other is empty).  Third equation: when
compare(*this_iter, *other_iter) holds this_iter advances past t, otherwise
the front element o of other is removed from other and inserted immediately
before this_iter.  The result pair is (final contents of this, final
contents of other). -/
def intrusive_list.merge {α : Type} (compare : α → α → Bool) :
    List α → List α → List α × List α
  | [], other => (other, [])
  | t :: ts, [] => (t :: ts, [])
  | t :: ts, o :: os =>
    if compare t o then
      let r := intrusive_list.merge compare ts (o :: os)
      (t :: r.1, r.2)
    else
      let r := intrusive_list.merge compare (t :: ts) os
      (o :: r.1, r.2)
termination_by l o => l.length + o.length

/-- Source lines 383-397: unique(pred).  The loop keeps iter on the element a
and checks it against its current successor; while pred(*iter, *next_iter)
holds the successor is removed (second branch of the third equation keeps a
in place), otherwise iter advances.  The loop stops when iter is the last
element (second equation) and an empty list returns at once (first
equation). -/
def intrusive_list.unique {α : Type} (pred : α → α → Bool) : List α → List α
  | [] => []
  | [a] => [a]
  | a :: b :: rest =>
    if pred a b then intrusive_list.unique pred (a :: rest)
    else a :: intrusive_list.unique pred (b :: rest)
termination_by l => l.length

/-- Source lines 403-420, body of one iteration of the insertion sort: done
is the already sorted prefix (the elements before iterator i) and a is the
element *i.  j starts at i and walks backwards while
compare(*i, *std::prev(j)) holds, i.e. over the maximal suffix of done all
of whose members x satisfy compare a x; then a is removed and reinserted
before j, i.e. between the untouched front of done and that suffix. -/
def insertionStep {α : Type} (compare : α → α → Bool) (done : List α) (a : α) :
    List α :=
  (done.reverse.dropWhile fun x => compare a x).reverse ++
    a :: (done.reverse.takeWhile fun x => compare a x).reverse

/-- Source lines 403-420: sort(compare) is an in-place insertion sort.  The
outer loop visits the elements in their original order (next is cached before
i is moved, and insertions only ever move an element backwards, so the suffix
still to be visited is never disturbed); each visit runs insertionStep on the
sorted prefix. -/
def intrusive_list.sort {α : Type} (compare : α → α → Bool) (l : List α) : List α :=
  l.foldl (insertionStep compare) []

/-- The heap in which every node is freshly constructed (source line 80):
self linked, in no list. -/
def initHeap : Heap := fun n => { next_ := n, previous_ := n }

/-- Two freshly constructed lists a (header 0) and b (header 1) and a node 2,
after b.push_back on node 2: a is empty, b holds exactly node 2. -/
def swapBugPre : Heap := intrusive_list.push_back initHeap 1 2

/-- The state after a.swap(b) from swapBugPre. -/
def swapBugPost : Heap := intrusive_list.swap swapBugPre 0 1

/-- A list with header 0 holding nodes 1 and 2 in that order, built by two
push_back calls on fresh nodes. -/
def ringThree : Heap :=
  intrusive_list.push_back (intrusive_list.push_back initHeap 0 1) 0 2

/-- The state after splice(pos, first, last) on ringThree with pos = last =
the iterator at node 2 and first = the iterator at node 1, i.e. splicing the
range consisting of node 1 to directly before node 2 inside the same list. -/
def spliceBugPost : Heap := intrusive_list.splice ringThree 2 1 2

/-- A heap whose only linked pair is the list with header 0 holding node 1. -/
def pairHeap : Heap := intrusive_list.push_back initHeap 0 1

theorem remove_of_self_linked (h : Heap) (n : Nat)
    (h1 : (h n).next_ = n) (h2 : (h n).previous_ = n) :
    intrusive_list_node.remove h n = h := by
  have hn : h n = ⟨n, n⟩ := by
    have he : h n = ⟨(h n).next_, (h n).previous_⟩ := rfl
    rw [he, h1, h2]
  funext m
  by_cases hm : m = n
  · subst hm
    simp [intrusive_list_node.remove, intrusive_list_node.clear, setPrev, setNext, hn]
  · simp [intrusive_list_node.remove, intrusive_list_node.clear, setPrev, setNext, hn, hm]

theorem remove_self_next (h : Heap) (n : Nat) :
    ((intrusive_list_node.remove h n) n).next_ = n ∧
      ((intrusive_list_node.remove h n) n).previous_ = n := by
  simp [intrusive_list_node.remove, intrusive_list_node.clear, setPrev, setNext]

/-- C6: remove() always leaves the link field self linked, so in_list()
reports false afterwards and the node satisfies the precondition for being
reinserted at once; removing a field that is not in any list (self linked,
its freshly constructed state) changes nothing at all, and consequently
remove composed with remove equals remove. -/
theorem claim_C6_remove_self_linked (h : Heap) (n : Nat) :
    ((intrusive_list_node.remove h n) n).next_ = n ∧
      ((intrusive_list_node.remove h n) n).previous_ = n ∧
      intrusive_list_node.in_list (intrusive_list_node.remove h n) n = false ∧
      ((h n).next_ = n → (h n).previous_ = n → intrusive_list_node.remove h n = h) ∧
      intrusive_list_node.remove (intrusive_list_node.remove h n) n =
        intrusive_list_node.remove h n := by
  obtain ⟨ha, hb⟩ := remove_self_next h n
  refine ⟨ha, hb, ?_, remove_of_self_linked h n, ?_⟩
  · simp [intrusive_list_node.in_list, ha]
  · exact remove_of_self_linked _ n ha hb

/-- Witness for C6 at the concrete heap pairHeap and the unlinked node 5. -/
theorem claim_C6_remove_self_linked_witness :
    ((intrusive_list_node.remove pairHeap 5) 5).next_ = 5 ∧
      ((intrusive_list_node.remove pairHeap 5) 5).previous_ = 5 ∧
      intrusive_list_node.in_list (intrusive_list_node.remove pairHeap 5) 5 = false ∧
      intrusive_list_node.remove pairHeap 5 = pairHeap ∧
      intrusive_list_node.remove (intrusive_list_node.remove pairHeap 5) 5 =
        intrusive_list_node.remove pairHeap 5 := by
  obtain ⟨h1, h2, h3, h4, h5⟩ := claim_C6_remove_self_linked pairHeap 5
  exact ⟨h1, h2, h3, h4 (by decide) (by decide), h5⟩

/-- C10: pop_front() and pop_back() on an empty list (header self linked)
leave the heap, and hence the list and every node, completely unchanged,
because removing the self linked header is a no-op. -/
theorem claim_C10_pop_on_empty (h : Heap) (hd : Nat)
    (h1 : (h hd).next_ = hd) (h2 : (h hd).previous_ = hd) :
    intrusive_list.pop_front h hd = h ∧ intrusive_list.pop_back h hd = h := by
  constructor
  · unfold intrusive_list.pop_front
    rw [h1]
    exact remove_of_self_linked h hd h1 h2
  · unfold intrusive_list.pop_back
    rw [h2]
    exact remove_of_self_linked h hd h1 h2

/-- Witness for C10 at the concrete heap pairHeap with the empty list whose
header is node 5. -/
theorem claim_C10_pop_on_empty_witness :
    intrusive_list.pop_front pairHeap 5 = pairHeap ∧
      intrusive_list.pop_back pairHeap 5 = pairHeap :=
  claim_C10_pop_on_empty pairHeap 5 (by decide) (by decide)

/-- C2 fails on the code: swapping an empty list a (header 0) with the one
element list b (header 1 holding node 2) corrupts the chains instead of
exchanging the contents.  Before the call a is empty and b holds node 2;
afterwards a does not hold node 2, b is not empty, header 0 ends half
linked (next_ = 0 but previous_ = 1) and node 2 points at itself backwards. -/
theorem claim_C2_swap_with_empty_corrupts :
    IsList swapBugPre 0 [] ∧ IsList swapBugPre 1 [2] ∧
      ¬ IsList swapBugPost 0 [2] ∧ ¬ IsList swapBugPost 1 [] ∧
      swapBugPost 0 = ⟨0, 1⟩ ∧ swapBugPost 1 = ⟨2, 0⟩ ∧ swapBugPost 2 = ⟨1, 2⟩ := by
  decide

/-- C7 fails on the code: the state swapBugPost is reached from freshly
constructed nodes by the well formed operations push_back of node 2 into
list b (header 1) followed by a.swap(b) with a the empty list with header 0;
in it node 2 has next_ = 1 but node 1 has previous_ = 0 (doubly linked
consistency broken), and header 0 reports in_list() false although its
previous_ is 1, not itself (self linkage broken). -/
theorem claim_C7_invariant_violated :
    (swapBugPost ((swapBugPost 2).next_)).previous_ ≠ 2 ∧
      (swapBugPost ((swapBugPost 0).previous_)).next_ ≠ 0 ∧
      intrusive_list_node.in_list swapBugPost 0 = false ∧
      (swapBugPost 0).previous_ ≠ 0 := by
  decide

/-- C9 fails on the code as stated: in the list with header 0 holding nodes
1 and 2, the call splice(pos, first, last) with pos = last = the iterator at
node 2 and first = the iterator at node 1 is a well formed splice of the half
open range holding exactly node 1 (pos is not inside the range), and per the
claim it must move node 1 immediately before node 2, leaving the list as
1, 2; instead the code drops node 1 from the list entirely. -/
theorem claim_C9_counterexample_pos_eq_last :
    IsList ringThree 0 [1, 2] ∧ ¬ IsList spliceBugPost 0 [1, 2] ∧
      IsList spliceBugPost 0 [2] ∧ spliceBugPost 1 = ⟨2, 1⟩ := by
  decide

def ltFst (a b : Nat × Nat) : Bool := decide (a.1 < b.1)

/-- C1 fails on the code: merging this = [(1, 0)] with other = [(1, 1)]
under comparison of first components, the two elements are equivalent
(neither compares before the other), yet the loop takes its else branch
because compare(*this_iter, *other_iter) is false and inserts the element
from other before the element from this, producing the pair from other ahead
of the pair from this instead of the claimed opposite order. -/
theorem claim_C1_merge_unstable :
    ltFst (1, 0) (1, 1) = false ∧ ltFst (1, 1) (1, 0) = false ∧
      intrusive_list.merge ltFst [(1, 0)] [(1, 1)] = ([(1, 1), (1, 0)], []) := by
  refine ⟨by decide, by decide, ?_⟩
  simp [intrusive_list.merge, ltFst]

/-- Modelled from the wording of the specification for C5: dropRun pred a l
removes from the front of l the remainder of the maximal run of consecutive
pred equivalent elements begun by a, where consecutive means each element is
equivalent to its predecessor. -/
def dropRun {α : Type} (pred : α → α → Bool) (a : α) : List α → List α
  | [] => []
  | b :: rest => if pred a b then dropRun pred b rest else b :: rest

theorem dropRun_length_le {α : Type} (pred : α → α → Bool) :
    ∀ (l : List α) (a : α), (dropRun pred a l).length ≤ l.length
  | [], _ => Nat.le_refl _
  | b :: rest, a => by
    rw [dropRun]
    by_cases hb : pred a b
    · simp only [if_pos hb]
      exact Nat.le_trans (dropRun_length_le pred rest b) (Nat.le_succ _)
    · simp [if_neg hb]

/-- Modelled from the wording of the specification for C5: keep from each
maximal run of consecutive pred equivalent elements exactly its first
element, leaving all other elements untouched. -/
def runHeads {α : Type} (pred : α → α → Bool) : List α → List α
  | [] => []
  | a :: rest => a :: runHeads pred (dropRun pred a rest)
termination_by l => l.length
decreasing_by
  simp only [List.length_cons]
  exact Nat.lt_succ_of_le (dropRun_length_le _ _ _)

theorem unique_cons {α : Type} (pred : α → α → Bool) (a : α) : ∀ l : List α,
    intrusive_list.unique pred (a :: l) =
      a :: intrusive_list.unique pred (l.dropWhile (pred a))
  | [] => by simp [intrusive_list.unique]
  | b :: rest => by
    rw [intrusive_list.unique]
    by_cases hb : pred a b
    · rw [if_pos hb, unique_cons pred a rest, List.dropWhile_cons_of_pos hb]
    · rw [if_neg hb, List.dropWhile_cons_of_neg hb]
termination_by l => l.length

theorem dropRun_eq_dropWhile {α : Type} {pred : α → α → Bool}
    (hsym : ∀ x y, pred x y = true → pred y x = true)
    (htrans : ∀ x y z, pred x y = true → pred y z = true → pred x z = true) :
    ∀ (l : List α) (a b : α), pred a b = true →
      dropRun pred b l = l.dropWhile (pred a)
  | [], _, _, _ => rfl
  | c :: rest, a, b, hab => by
    rw [dropRun]
    have hbc : pred b c = pred a c := by
      by_cases hc : pred b c
      · rw [hc, htrans a b c hab hc]
      · by_cases hac : pred a c
        · exact absurd (htrans b a c (hsym a b hab) hac) hc
        · simp only [Bool.not_eq_true] at hc hac
          rw [hc, hac]
    by_cases hc : pred a c
    · rw [hbc, if_pos hc, List.dropWhile_cons_of_pos hc,
        dropRun_eq_dropWhile hsym htrans rest a c hc]
    · rw [hbc, if_neg hc, List.dropWhile_cons_of_neg hc]

theorem dropRun_self_eq_dropWhile {α : Type} {pred : α → α → Bool}
    (hsym : ∀ x y, pred x y = true → pred y x = true)
    (htrans : ∀ x y z, pred x y = true → pred y z = true → pred x z = true)
    (l : List α) (a : α) : dropRun pred a l = l.dropWhile (pred a) := by
  cases l with
  | nil => rfl
  | cons c rest =>
    rw [dropRun]
    by_cases hc : pred a c
    · rw [if_pos hc, List.dropWhile_cons_of_pos hc,
        dropRun_eq_dropWhile hsym htrans rest a c hc]
    · rw [if_neg hc, List.dropWhile_cons_of_neg hc]

theorem unique_eq_runHeads {α : Type} {pred : α → α → Bool}
    (hsym : ∀ x y, pred x y = true → pred y x = true)
    (htrans : ∀ x y z, pred x y = true → pred y z = true → pred x z = true) :
    ∀ l : List α, intrusive_list.unique pred l = runHeads pred l
  | [] => by simp [intrusive_list.unique, runHeads]
  | a :: rest => by
    rw [unique_cons, runHeads, dropRun_self_eq_dropWhile hsym htrans,
      unique_eq_runHeads hsym htrans (rest.dropWhile (pred a))]
termination_by l => l.length
decreasing_by
  simp only [List.length_cons]
  exact Nat.lt_succ_of_le (List.dropWhile_sublist _).length_le

theorem unique_sublist {α : Type} (pred : α → α → Bool) :
    ∀ l : List α, (intrusive_list.unique pred l).Sublist l
  | [] => by simp [intrusive_list.unique]
  | [a] => by simp [intrusive_list.unique]
  | a :: b :: rest => by
    rw [intrusive_list.unique]
    by_cases hb : pred a b
    · rw [if_pos hb]
      exact (unique_sublist pred (a :: rest)).trans
        (List.Sublist.cons₂ a (List.sublist_cons_self b rest))
    · rw [if_neg hb]
      exact List.Sublist.cons₂ a (unique_sublist pred (b :: rest))
termination_by l => l.length

/-- C5: for every equivalence predicate pred, unique(pred) keeps exactly the
first element of each maximal run of consecutive pred equivalent elements
and removes the rest, leaving all other elements untouched (the result is
runHeads pred l and a sublist of l); in particular unique on 1,1,2,2,2,3
with equality as the predicate yields 1,2,3. -/
theorem claim_C5_unique_keeps_run_heads {α : Type} (pred : α → α → Bool)
    (hsym : ∀ x y, pred x y = true → pred y x = true)
    (htrans : ∀ x y z, pred x y = true → pred y z = true → pred x z = true)
    (l : List α) :
    intrusive_list.unique pred l = runHeads pred l ∧
      (intrusive_list.unique pred l).Sublist l ∧
      intrusive_list.unique (fun a b : Nat => a == b) [1, 1, 2, 2, 2, 3] =
        [1, 2, 3] := by
  refine ⟨unique_eq_runHeads hsym htrans l, unique_sublist pred l, ?_⟩
  simp [intrusive_list.unique]

/-- Witness for C5: the equality predicate on Nat, which is symmetric and
transitive, applied to the list 1,1,2,2,2,3. -/
theorem claim_C5_unique_keeps_run_heads_witness :
    intrusive_list.unique (fun a b : Nat => a == b) [1, 1, 2, 2, 2, 3] =
        runHeads (fun a b : Nat => a == b) [1, 1, 2, 2, 2, 3] ∧
      (intrusive_list.unique (fun a b : Nat => a == b)
        [1, 1, 2, 2, 2, 3]).Sublist [1, 1, 2, 2, 2, 3] ∧
      intrusive_list.unique (fun a b : Nat => a == b) [1, 1, 2, 2, 2, 3] =
        [1, 2, 3] :=
  claim_C5_unique_keeps_run_heads (fun a b : Nat => a == b)
    (fun x y h => by simp only [beq_iff_eq] at h ⊢; omega)
    (fun x y z h1 h2 => by simp only [beq_iff_eq] at h1 h2 ⊢; omega)
    [1, 1, 2, 2, 2, 3]

/-- A list is sorted ascending under the comparator lt (a strict weak order
in Bool form) when no element compares before an element that precedes it. -/
def SortedB {α : Type} (lt : α → α → Bool) (l : List α) : Prop :=
  l.Pairwise (fun a b => lt b a = false)

theorem merge_snd_eq_nil {α : Type} (compare : α → α → Bool) :
    ∀ l o : List α, (intrusive_list.merge compare l o).2 = []
  | [], _ => by simp [intrusive_list.merge]
  | _ :: _, [] => by simp [intrusive_list.merge]
  | t :: ts, o :: os => by
    rw [intrusive_list.merge]
    by_cases hlt : compare t o
    · simpa [hlt] using merge_snd_eq_nil compare ts (o :: os)
    · simpa [hlt] using merge_snd_eq_nil compare (t :: ts) os
termination_by l o => l.length + o.length

theorem merge_fst_perm {α : Type} (compare : α → α → Bool) :
    ∀ l o : List α, (intrusive_list.merge compare l o).1.Perm (l ++ o)
  | [], o => by simp [intrusive_list.merge]
  | t :: ts, [] => by simp [intrusive_list.merge]
  | t :: ts, o :: os => by
    rw [intrusive_list.merge]
    by_cases hlt : compare t o
    · simpa [hlt] using (merge_fst_perm compare ts (o :: os)).cons t
    · simp only [hlt, Bool.false_eq_true, if_false]
      exact ((merge_fst_perm compare (t :: ts) os).cons o).trans
        List.perm_middle.symm
termination_by l o => l.length + o.length

instance {α : Type} (lt : α → α → Bool) [DecidableEq α] (l : List α) :
    Decidable (SortedB lt l) :=
  inferInstanceAs (Decidable (List.Pairwise _ _))

theorem merge_fst_sorted {α : Type} {compare : α → α → Bool}
    (hasym : ∀ x y, compare x y = true → compare y x = false)
    (htrans : ∀ x y z, compare x y = true → compare y z = true →
      compare x z = true)
    (hneg : ∀ x y z, compare x y = false → compare y z = false →
      compare x z = false) :
    ∀ l o : List α, SortedB compare l → SortedB compare o →
      SortedB compare (intrusive_list.merge compare l o).1
  | [], o, _, ho => by simpa [intrusive_list.merge] using ho
  | t :: ts, [], hl, _ => by simpa [intrusive_list.merge] using hl
  | t :: ts, o :: os, hl, ho => by
    rw [intrusive_list.merge]
    obtain ⟨hlts, hlt'⟩ := List.pairwise_cons.mp hl
    obtain ⟨hoos, hot'⟩ := List.pairwise_cons.mp ho
    by_cases hlt : compare t o
    · simp only [hlt, if_true]
      refine List.pairwise_cons.mpr ⟨?_, merge_fst_sorted hasym htrans hneg
        ts (o :: os) hlt' ho⟩
      intro b hb
      have hb2 : b ∈ ts ++ o :: os :=
        (merge_fst_perm compare ts (o :: os)).mem_iff.mp hb
      rcases List.mem_append.mp hb2 with hbts | hboos
      · exact hlts b hbts
      · rcases List.mem_cons.mp hboos with rfl | hbos
        · exact hasym t b hlt
        · by_contra hbt
          rw [Bool.not_eq_false] at hbt
          have : compare b o = true := htrans b t o hbt hlt
          rw [hoos b hbos] at this
          exact Bool.false_ne_true this
    · simp only [hlt, Bool.false_eq_true, if_false]
      refine List.pairwise_cons.mpr ⟨?_, merge_fst_sorted hasym htrans hneg
        (t :: ts) os hl hot'⟩
      intro b hb
      have hb2 : b ∈ (t :: ts) ++ os :=
        (merge_fst_perm compare (t :: ts) os).mem_iff.mp hb
      have hlt0 : compare t o = false := by
        simpa using hlt
      rcases List.mem_append.mp hb2 with hbts | hbos
      · rcases List.mem_cons.mp hbts with rfl | hbts'
        · exact hlt0
        · exact hneg b t o (hlts b hbts') hlt0
      · exact hoos b hbos
termination_by l o => l.length + o.length

/-- C3: merging two lists that are each sorted ascending under a strict weak
order comparator produces in this a sorted permutation of the union of both
lists and leaves other empty. -/
theorem claim_C3_merge_sorted_union {α : Type} (compare : α → α → Bool)
    (hasym : ∀ x y, compare x y = true → compare y x = false)
    (htrans : ∀ x y z, compare x y = true → compare y z = true →
      compare x z = true)
    (hneg : ∀ x y z, compare x y = false → compare y z = false →
      compare x z = false)
    (l o : List α) (hl : SortedB compare l) (ho : SortedB compare o) :
    (intrusive_list.merge compare l o).1.Perm (l ++ o) ∧
      SortedB compare (intrusive_list.merge compare l o).1 ∧
      (intrusive_list.merge compare l o).2 = [] :=
  ⟨merge_fst_perm compare l o,
    merge_fst_sorted hasym htrans hneg l o hl ho,
    merge_snd_eq_nil compare l o⟩

/-- The natural order on Nat as a Bool comparator. -/
def natLtB (a b : Nat) : Bool := decide (a < b)

/-- Witness for C3: merging the sorted lists [1, 3, 5] and [2, 3, 4] under
the natural order on Nat. -/
theorem claim_C3_merge_sorted_union_witness :
    (intrusive_list.merge natLtB [1, 3, 5] [2, 3, 4]).1.Perm
        ([1, 3, 5] ++ [2, 3, 4]) ∧
      SortedB natLtB (intrusive_list.merge natLtB [1, 3, 5] [2, 3, 4]).1 ∧
      (intrusive_list.merge natLtB [1, 3, 5] [2, 3, 4]).2 = [] :=
  claim_C3_merge_sorted_union natLtB
    (fun x y h => by
      simp only [natLtB, decide_eq_true_eq] at h
      simp only [natLtB, decide_eq_false_iff_not]; omega)
    (fun x y z h1 h2 => by
      simp only [natLtB, decide_eq_true_eq] at h1 h2
      simp only [natLtB, decide_eq_true_eq]; omega)
    (fun x y z h1 h2 => by
      simp only [natLtB, decide_eq_false_iff_not] at h1 h2
      simp only [natLtB, decide_eq_false_iff_not]; omega)
    [1, 3, 5] [2, 3, 4] (by decide) (by decide)

/-- The backward walk of one insertion sort step, carried out on the
reversed sorted prefix: walking from the element directly before i towards
the front, every element x with compare a x is passed over, and a is placed
directly after the first element for which the comparison fails. -/
def insertRev {α : Type} (compare : α → α → Bool) (a : α) : List α → List α
  | [] => [a]
  | x :: xs => if compare a x then x :: insertRev compare a xs else a :: x :: xs

theorem insertRev_eq_take_drop {α : Type} (compare : α → α → Bool) (a : α) :
    ∀ l : List α, insertRev compare a l =
      l.takeWhile (fun x => compare a x) ++ a :: l.dropWhile (fun x => compare a x)
  | [] => rfl
  | x :: xs => by
    rw [insertRev]
    by_cases hx : compare a x
    · rw [if_pos hx, List.takeWhile_cons_of_pos hx, List.dropWhile_cons_of_pos hx,
        insertRev_eq_take_drop compare a xs, List.cons_append]
    · rw [if_neg hx, List.takeWhile_cons_of_neg hx, List.dropWhile_cons_of_neg hx,
        List.nil_append]

theorem insertionStep_eq_insertRev {α : Type} (compare : α → α → Bool)
    (done : List α) (a : α) :
    insertionStep compare done a = (insertRev compare a done.reverse).reverse := by
  rw [insertRev_eq_take_drop, insertionStep]
  simp

theorem sort_eq_foldl_insertRev {α : Type} (compare : α → α → Bool) :
    ∀ (l : List α) (acc : List α),
      l.foldl (insertionStep compare) acc =
        (l.foldl (fun acc2 a => insertRev compare a acc2) acc.reverse).reverse
  | [], acc => by simp
  | a :: l, acc => by
    rw [List.foldl_cons, List.foldl_cons,
      sort_eq_foldl_insertRev compare l (insertionStep compare acc a),
      insertionStep_eq_insertRev, List.reverse_reverse]

theorem insertRev_perm {α : Type} (compare : α → α → Bool) (a : α) :
    ∀ l : List α, (insertRev compare a l).Perm (a :: l)
  | [] => List.Perm.refl _
  | x :: xs => by
    rw [insertRev]
    by_cases hx : compare a x
    · rw [if_pos hx]
      exact ((insertRev_perm compare a xs).cons x).trans (List.Perm.swap a x xs)
    · rw [if_neg hx]

theorem foldl_insertRev_perm {α : Type} (compare : α → α → Bool) :
    ∀ (l acc : List α),
      (l.foldl (fun acc2 a => insertRev compare a acc2) acc).Perm (l ++ acc)
  | [], acc => by simp
  | a :: l, acc => by
    rw [List.foldl_cons]
    refine (foldl_insertRev_perm compare l (insertRev compare a acc)).trans ?_
    refine (List.Perm.append_left l (insertRev_perm compare a acc)).trans ?_
    exact List.perm_middle

theorem insertRev_pairwise {α : Type} {compare : α → α → Bool}
    (hasym : ∀ x y, compare x y = true → compare y x = false)
    (hneg : ∀ x y z, compare x y = false → compare y z = false →
      compare x z = false) (a : α) :
    ∀ l : List α, l.Pairwise (fun u v => compare u v = false) →
      (insertRev compare a l).Pairwise (fun u v => compare u v = false)
  | [], _ => by simp [insertRev]
  | x :: xs, hp => by
    obtain ⟨hx1, hx2⟩ := List.pairwise_cons.mp hp
    rw [insertRev]
    by_cases hx : compare a x
    · rw [if_pos hx]
      refine List.pairwise_cons.mpr ⟨?_, insertRev_pairwise hasym hneg a xs hx2⟩
      intro y hy
      have : y ∈ a :: xs := (insertRev_perm compare a xs).mem_iff.mp hy
      rcases List.mem_cons.mp this with rfl | hyxs
      · exact hasym y x hx
      · exact hx1 y hyxs
    · rw [if_neg hx]
      have hx0 : compare a x = false := by simpa using hx
      refine List.pairwise_cons.mpr ⟨?_, hp⟩
      intro y hy
      rcases List.mem_cons.mp hy with rfl | hyxs
      · exact hx0
      · exact hneg a x y hx0 (hx1 y hyxs)

theorem foldl_insertRev_pairwise {α : Type} {compare : α → α → Bool}
    (hasym : ∀ x y, compare x y = true → compare y x = false)
    (hneg : ∀ x y z, compare x y = false → compare y z = false →
      compare x z = false) :
    ∀ (l acc : List α), acc.Pairwise (fun u v => compare u v = false) →
      (l.foldl (fun acc2 a => insertRev compare a acc2) acc).Pairwise
        (fun u v => compare u v = false)
  | [], _, hacc => hacc
  | a :: l, acc, hacc => by
    rw [List.foldl_cons]
    exact foldl_insertRev_pairwise hasym hneg l _
      (insertRev_pairwise hasym hneg a acc hacc)

/-- Two elements are equivalent under the comparator when neither compares
before the other. -/
def equivB {α : Type} (compare : α → α → Bool) (a b : α) : Bool :=
  !(compare a b) && !(compare b a)

theorem filter_insertRev_of_equiv {α : Type} {compare : α → α → Bool}
    (hneg : ∀ x y z, compare x y = false → compare y z = false →
      compare x z = false) {a c : α} (hac : equivB compare a c = true) :
    ∀ l : List α, (insertRev compare a l).filter (fun y => equivB compare y c) =
      a :: l.filter (fun y => equivB compare y c)
  | [] => by simp [insertRev, hac]
  | x :: xs => by
    rw [insertRev]
    obtain ⟨hac1, hac2⟩ := by simpa [equivB] using hac
    by_cases hx : compare a x
    · rw [if_pos hx]
      have hxc : equivB compare x c = false := by
        by_contra hxc
        rw [Bool.not_eq_false] at hxc
        obtain ⟨hxc1, hxc2⟩ := by simpa [equivB] using hxc
        have : compare a x = false := hneg a c x hac1 hxc2
        rw [this] at hx
        exact Bool.false_ne_true hx
      rw [List.filter_cons_of_neg (by simpa using hxc),
        filter_insertRev_of_equiv hneg hac xs,
        List.filter_cons_of_neg (by simpa using hxc)]
    · rw [if_neg hx]
      rw [List.filter_cons_of_pos (by simpa using hac)]

theorem filter_insertRev_of_not_equiv {α : Type} {compare : α → α → Bool}
    {a c : α} (hac : equivB compare a c = false) :
    ∀ l : List α, (insertRev compare a l).filter (fun y => equivB compare y c) =
      l.filter (fun y => equivB compare y c)
  | [] => by simp [insertRev, hac]
  | x :: xs => by
    rw [insertRev]
    by_cases hx : compare a x
    · rw [if_pos hx]
      by_cases hxc : equivB compare x c = true
      · rw [List.filter_cons_of_pos (by simpa using hxc),
          List.filter_cons_of_pos (by simpa using hxc),
          filter_insertRev_of_not_equiv hac xs]
      · rw [List.filter_cons_of_neg (by simpa using hxc),
          List.filter_cons_of_neg (by simpa using hxc),
          filter_insertRev_of_not_equiv hac xs]
    · rw [if_neg hx]
      rw [List.filter_cons_of_neg (by simpa using hac)]

theorem foldl_insertRev_filter {α : Type} {compare : α → α → Bool}
    (hneg : ∀ x y z, compare x y = false → compare y z = false →
      compare x z = false) (c : α) :
    ∀ (l acc : List α),
      (l.foldl (fun acc2 a => insertRev compare a acc2) acc).filter
          (fun y => equivB compare y c) =
        (l.filter (fun y => equivB compare y c)).reverse ++
          acc.filter (fun y => equivB compare y c)
  | [], acc => by simp
  | a :: l, acc => by
    rw [List.foldl_cons, foldl_insertRev_filter hneg c l _]
    by_cases hac : equivB compare a c = true
    · rw [filter_insertRev_of_equiv hneg hac,
        List.filter_cons_of_pos (by simpa using hac)]
      simp
    · rw [filter_insertRev_of_not_equiv (by simpa using hac),
        List.filter_cons_of_neg (by simpa using hac)]

/-- C4: for every strict weak order comparator, sort produces a sorted
permutation of the same elements and is stable: for any reference element c,
the elements equivalent to c appear in the output in exactly the order they
had in the input; in particular sorting the tagged list
(5,0),(3,1),(5,2),(1,3),(4,4) by first component gives
(1,3),(3,1),(4,4),(5,0),(5,2), the two fives keeping their original relative
order. -/
theorem claim_C4_sort_stable_sorted_perm {α : Type} (compare : α → α → Bool)
    (hasym : ∀ x y, compare x y = true → compare y x = false)
    (_htrans : ∀ x y z, compare x y = true → compare y z = true →
      compare x z = true)
    (hneg : ∀ x y z, compare x y = false → compare y z = false →
      compare x z = false)
    (l : List α) (c : α) :
    (intrusive_list.sort compare l).Perm l ∧
      SortedB compare (intrusive_list.sort compare l) ∧
      (intrusive_list.sort compare l).filter (fun y => equivB compare y c) =
        l.filter (fun y => equivB compare y c) ∧
      intrusive_list.sort ltFst [(5, 0), (3, 1), (5, 2), (1, 3), (4, 4)] =
        [(1, 3), (3, 1), (4, 4), (5, 0), (5, 2)] := by
  have hrw : intrusive_list.sort compare l =
      (l.foldl (fun acc2 a => insertRev compare a acc2) []).reverse := by
    rw [intrusive_list.sort, sort_eq_foldl_insertRev compare l []]
    rfl
  refine ⟨?_, ?_, ?_, by decide⟩
  · rw [hrw]
    refine (List.reverse_perm _).trans ?_
    simpa using foldl_insertRev_perm compare l []
  · rw [SortedB, hrw, List.pairwise_reverse]
    exact foldl_insertRev_pairwise hasym hneg l [] (by simp)
  · rw [hrw, List.filter_reverse]
    rw [foldl_insertRev_filter hneg c l []]
    simp

/-- Witness for C4 at the comparator on first components, the tagged input
list and the reference element (5, 99). -/
theorem claim_C4_sort_stable_sorted_perm_witness :
    (intrusive_list.sort ltFst [(5, 0), (3, 1), (5, 2), (1, 3), (4, 4)]).Perm
        [(5, 0), (3, 1), (5, 2), (1, 3), (4, 4)] ∧
      SortedB ltFst (intrusive_list.sort ltFst
        [(5, 0), (3, 1), (5, 2), (1, 3), (4, 4)]) ∧
      (intrusive_list.sort ltFst
          [(5, 0), (3, 1), (5, 2), (1, 3), (4, 4)]).filter
          (fun y => equivB ltFst y (5, 99)) =
        [(5, 0), (3, 1), (5, 2), (1, 3), (4, 4)].filter
          (fun y => equivB ltFst y (5, 99)) ∧
      intrusive_list.sort ltFst [(5, 0), (3, 1), (5, 2), (1, 3), (4, 4)] =
        [(1, 3), (3, 1), (4, 4), (5, 0), (5, 2)] :=
  claim_C4_sort_stable_sorted_perm ltFst
    (fun x y h => by
      simp only [ltFst, decide_eq_true_eq] at h
      simp only [ltFst, decide_eq_false_iff_not]; omega)
    (fun x y z h1 h2 => by
      simp only [ltFst, decide_eq_true_eq] at h1 h2
      simp only [ltFst, decide_eq_true_eq]; omega)
    (fun x y z h1 h2 => by
      simp only [ltFst, decide_eq_false_iff_not] at h1 h2
      simp only [ltFst, decide_eq_false_iff_not]; omega)
    [(5, 0), (3, 1), (5, 2), (1, 3), (4, 4)] (5, 99)

/-- The last node of d :: l, written without a nonemptiness proof. -/
def lastOf (d : Nat) : List Nat → Nat
  | [] => d
  | [x] => x
  | _ :: y :: rest => lastOf d (y :: rest)

theorem lastOf_append_singleton (d : Nat) : ∀ (l : List Nat) (t : Nat),
    lastOf d (l ++ [t]) = t
  | [], t => rfl
  | [x], t => rfl
  | x :: y :: rest, t => by
    rw [List.cons_append, List.cons_append, lastOf, ← List.cons_append,
      lastOf_append_singleton d (y :: rest) t]

theorem lastOf_cons_ne_nil (d x : Nat) : ∀ (l : List Nat), l ≠ [] →
    lastOf d (x :: l) = lastOf d l
  | [], hne => absurd rfl hne
  | y :: rest, _ => by rw [lastOf]

theorem snoc_decomp (d : Nat) : ∀ (l : List Nat), l ≠ [] →
    l = l.dropLast ++ [lastOf d l]
  | [], hne => absurd rfl hne
  | [x], _ => rfl
  | x :: y :: rest, _ => by
    rw [lastOf_cons_ne_nil d x (y :: rest) (by simp), List.dropLast_cons₂,
      List.cons_append]
    exact congrArg (x :: ·) (snoc_decomp d (y :: rest) (by simp))

theorem lastOf_mem (d : Nat) : ∀ (l : List Nat), l ≠ [] → lastOf d l ∈ l
  | [], hne => absurd rfl hne
  | [x], _ => by simp [lastOf]
  | x :: y :: rest, _ => by
    rw [lastOf]
    exact List.mem_cons_of_mem x (lastOf_mem d (y :: rest) (by simp))

theorem headD_append_of_ne_nil (d : Nat) : ∀ (l1 l2 : List Nat), l1 ≠ [] →
    (l1 ++ l2).headD d = l1.headD d
  | [], _, hne => absurd rfl hne
  | _ :: _, _, _ => rfl

theorem headD_reverse (d : Nat) : ∀ l : List Nat, l.reverse.headD d = lastOf d l
  | [] => rfl
  | x :: l => by
    rw [List.reverse_cons]
    by_cases hl : l = []
    · subst hl; rfl
    · rw [headD_append_of_ne_nil d l.reverse [x]
        (by simpa using hl), headD_reverse d l, lastOf_cons_ne_nil d x l hl]

theorem headD_mem (d : Nat) (l : List Nat) (hne : l ≠ []) : l.headD d ∈ l := by
  cases l with
  | nil => exact absurd rfl hne
  | cons x rest => simp

theorem FChain_start {f h a b} {xs : List Nat} (hc : FChain f h a xs b) :
    a = xs.headD b := by
  cases xs with
  | nil => exact hc
  | cons x rest => exact hc.1

theorem IsList.next_start {h hd xs} (hl : IsList h hd xs) :
    (h hd).next_ = xs.headD hd :=
  FChain_start hl.1.2

theorem IsList.prev_start {h hd xs} (hl : IsList h hd xs) :
    (h hd).previous_ = lastOf hd xs := by
  have := FChain_start hl.2.2
  rwa [headD_reverse] at this

/-- The first two statements of the node move assignment (the unlink of the
receiver) read only fields of dst, so the whole operation equals move applied
after the two writes with their values spelled out. -/
theorem move_assign_eq (h : Heap) (dst src : Nat) :
    intrusive_list.move_assign h dst src =
      intrusive_list_node.move
        (setNext (setPrev h ((h dst).next_) ((h dst).previous_))
          ((h dst).previous_) ((h dst).next_)) dst src := by
  rw [intrusive_list.move_assign, intrusive_list_node.move_assign]
  have e1 : (setPrev h ((h dst).next_) ((h dst).previous_) dst).previous_ =
      (h dst).previous_ := by
    rw [setPrev_previous_, ite_self]
  have e2 : (setPrev h ((h dst).next_) ((h dst).previous_) dst).next_ =
      (h dst).next_ := by
    rw [setPrev_next_]
  rw [e1, e2]

/-- When src is in a list and differs from dst, the private move unravels
into four explicit writes followed by a clear of src, with every read spelled
out against the incoming heap. -/
theorem move_eval (H : Heap) (dst src : Nat) (hds : src ≠ dst)
    (hin : (H src).next_ ≠ src) :
    intrusive_list_node.move H dst src =
      intrusive_list_node.clear
        (setNext (setPrev (setPrev (setNext H dst ((H src).next_)) dst
          ((H src).previous_)) ((H src).next_) dst)
          ((H src).previous_) dst) src := by
  rw [intrusive_list_node.move, if_pos (by simpa using hin)]
  have e1 : ((setNext H dst ((H src).next_)) src).previous_ =
      (H src).previous_ := by
    rw [setNext_previous_]
  have e2 : ((setPrev (setNext H dst ((H src).next_)) dst
      ((H src).previous_)) src).next_ = (H src).next_ := by
    rw [setPrev_next_, setNext_next_, if_neg hds]
  have e3 : ((setPrev (setPrev (setNext H dst ((H src).next_)) dst
      ((H src).previous_)) ((H src).next_) dst) src).previous_ =
      (H src).previous_ := by
    rw [setPrev_previous_, if_neg (fun hh => hin hh.symm), setPrev_previous_,
      if_neg hds, setNext_previous_]
  simp only [e1, e2, e3]

/-- Pointwise value of the next_ field after splice (first different from
last): the three next writes target before_last, before_first and before_pos
in increasing age, every other node is untouched. -/
theorem splice_next_ (h : Heap) (pos first last : Nat) (hfl : first ≠ last)
    (m : Nat) :
    ((intrusive_list.splice h pos first last) m).next_ =
      if m = (h last).previous_ then pos
      else if m = (h first).previous_ then last
      else if m = (h pos).previous_ then first
      else (h m).next_ := by
  rw [intrusive_list.splice, if_neg hfl]
  simp only [setPrev_next_, setNext_next_]

/-- Pointwise value of the previous_ field after splice (first different
from last): the three previous writes target last, first and pos in
increasing age, every other node is untouched. -/
theorem splice_previous_ (h : Heap) (pos first last : Nat) (hfl : first ≠ last)
    (m : Nat) :
    ((intrusive_list.splice h pos first last) m).previous_ =
      if m = last then (h first).previous_
      else if m = first then (h pos).previous_
      else if m = pos then (h last).previous_
      else (h m).previous_ := by
  rw [intrusive_list.splice, if_neg hfl]
  simp only [setPrev_previous_, setNext_previous_]

/-- Pointwise value of both fields after the private move when src is in a
list: src ends self linked, its old neighbours are repointed at dst, dst
takes over the links of src, and every other node is untouched. -/
theorem move_in_list_eval (H : Heap) (dst src : Nat) (hds : src ≠ dst)
    (hin : (H src).next_ ≠ src) (m : Nat) :
    ((intrusive_list_node.move H dst src) m).next_ =
      (if m = src then src else if m = (H src).previous_ then dst
       else if m = dst then (H src).next_ else (H m).next_) ∧
    ((intrusive_list_node.move H dst src) m).previous_ =
      (if m = src then src else if m = (H src).next_ then dst
       else if m = dst then (H src).previous_ else (H m).previous_) := by
  rw [move_eval H dst src hds hin]
  constructor
  · simp only [intrusive_list_node.clear, setPrev_next_, setNext_next_]
  · simp only [intrusive_list_node.clear, setPrev_previous_, setNext_previous_]

/-- Pointwise value of both fields after the private move when src is not in
a list: dst is made self linked and nothing else changes. -/
theorem move_not_in_list_eval (H : Heap) (dst src : Nat)
    (hin : (H src).next_ = src) (m : Nat) :
    ((intrusive_list_node.move H dst src) m).next_ =
      (if m = dst then dst else (H m).next_) ∧
    ((intrusive_list_node.move H dst src) m).previous_ =
      (if m = dst then dst else (H m).previous_) := by
  rw [intrusive_list_node.move, if_neg (by simp [hin])]
  constructor
  · simp only [setPrev_next_, setNext_next_]
  · simp only [setPrev_previous_, setNext_previous_]

/-- C8: move constructing or move assigning a container from the list with
header src transfers all elements.  dst is the destination header: for move
construction it is freshly constructed and self linked, i.e. ys = []; for
move assignment it may head any list disjoint from the src list.  Afterwards dst
heads exactly the former elements of src in the same order with the boundary
link fields rewired to dst, and src is left empty. -/
theorem claim_C8_container_move (h : Heap) (dst src : Nat) (ys xs : List Nat)
    (hdst : IsList h dst ys) (hsrc : IsList h src xs)
    (hnd : (src :: xs).Nodup)
    (hdisj : ∀ a, a ∈ dst :: ys → a ∈ src :: xs → False) :
    IsList (intrusive_list.move_assign h dst src) dst xs ∧
      IsList (intrusive_list.move_assign h dst src) src [] := by
  obtain ⟨hsx, hxnd⟩ := List.nodup_cons.mp hnd
  have hds : dst ≠ src := fun he =>
    hdisj dst (List.mem_cons_self _ _) (he ▸ List.mem_cons_self _ _)
  have hdnm : (h dst).next_ ∈ dst :: ys := by
    rw [hdst.next_start]
    by_cases hys : ys = []
    · simp [hys]
    · exact List.mem_cons_of_mem _ (headD_mem dst ys hys)
  have hdpm : (h dst).previous_ ∈ dst :: ys := by
    rw [hdst.prev_start]
    by_cases hys : ys = []
    · simp [hys, lastOf]
    · exact List.mem_cons_of_mem _ (lastOf_mem dst ys hys)
  rw [move_assign_eq]
  have hH : ∀ m, m ∈ src :: xs →
      (setNext (setPrev h ((h dst).next_) ((h dst).previous_))
        ((h dst).previous_) ((h dst).next_)) m = h m := by
    intro m hm
    have h1 : m ≠ (h dst).next_ := fun he => hdisj m (he ▸ hdnm) hm
    have h2 : m ≠ (h dst).previous_ := fun he => hdisj m (he ▸ hdpm) hm
    simp [setNext, setPrev, h1, h2]
  revert hH
  generalize (setNext (setPrev h ((h dst).next_) ((h dst).previous_))
      ((h dst).previous_) ((h dst).next_)) = H
  intro hH
  have hHs : H src = h src := hH src (List.mem_cons_self _ _)
  by_cases hne : xs = []
  · subst hne
    have hsn : (h src).next_ = src := by simpa using hsrc.next_start
    have hsp : (h src).previous_ = src := by simpa [lastOf] using hsrc.prev_start
    have hin : (H src).next_ = src := by rw [hHs, hsn]
    have hEN := fun m => (move_not_in_list_eval H dst src hin m).1
    have hEP := fun m => (move_not_in_list_eval H dst src hin m).2
    refine ⟨⟨⟨rfl, ?_⟩, ⟨rfl, ?_⟩⟩, ⟨⟨rfl, ?_⟩, ⟨rfl, ?_⟩⟩⟩
    · show intrusive_list_node.next_ _ = dst
      rw [hEN dst, if_pos rfl]
    · show intrusive_list_node.previous_ _ = dst
      rw [hEP dst, if_pos rfl]
    · show intrusive_list_node.next_ _ = src
      rw [hEN src, if_neg (Ne.symm hds), hHs, hsn]
    · show intrusive_list_node.previous_ _ = src
      rw [hEP src, if_neg (Ne.symm hds), hHs, hsp]
  · have hin : (H src).next_ ≠ src := by
      rw [hHs, hsrc.next_start]
      intro he
      exact hsx (he ▸ headD_mem src xs hne)
    have hEN := fun m => (move_in_list_eval H dst src (Ne.symm hds) hin m).1
    have hEP := fun m => (move_in_list_eval H dst src (Ne.symm hds) hin m).2
    simp only [hHs] at hEN hEP
    have hfm : (h src).next_ ∈ xs := by
      rw [hsrc.next_start]; exact headD_mem src xs hne
    have hbm : (h src).previous_ ∈ xs := by
      rw [hsrc.prev_start]; exact lastOf_mem src xs hne
    have hdx : dst ∉ xs := fun hm =>
      hdisj dst (List.mem_cons_self _ _) (List.mem_cons_of_mem _ hm)
    -- next side
    have hsnoc := snoc_decomp src xs hne
    have hnd2 : (xs.dropLast ++ [lastOf src xs]).Nodup := by
      rw [← hsnoc]; exact hxnd
    obtain ⟨-, -, hdisj2⟩ := List.nodup_append.mp hnd2
    have hbql : (h src).previous_ = lastOf src xs := hsrc.prev_start
    have hold : FChain intrusive_list_node.next_ h
        (intrusive_list_node.next_ (h src)) xs src := hsrc.1.2
    rw [hsnoc] at hold
    obtain ⟨hinit, hlast⟩ := (FChain_snoc _ _).mp hold
    have hframe1 : ∀ x ∈ xs.dropLast,
        intrusive_list_node.next_ ((intrusive_list_node.move H dst src) x) =
          intrusive_list_node.next_ (h x) := by
      intro x hx
      have hxm : x ∈ xs := (List.dropLast_sublist xs).subset hx
      have ha1 : ¬ x = src := fun he => hsx (by rw [← he]; exact hxm)
      have ha2 : ¬ x = (h src).previous_ := fun he =>
        hdisj2 hx (by rw [← hbql, ← he]; exact List.mem_singleton_self x)
      have ha3 : ¬ x = dst := fun he => hdx (by rw [← he]; exact hxm)
      rw [hEN x, if_neg ha1, if_neg ha2, if_neg ha3,
        hH x (List.mem_cons_of_mem _ hxm)]
    have hnew1 := FChain_frame hframe1 hinit
    have hlast1 : intrusive_list_node.next_
        ((intrusive_list_node.move H dst src) (lastOf src xs)) = dst := by
      have hlm : lastOf src xs ∈ xs := lastOf_mem src xs hne
      have ha1 : ¬ lastOf src xs = src := fun he => hsx (by rw [← he]; exact hlm)
      rw [hEN, if_neg ha1, hbql, if_pos rfl]
    have hchain1 : FChain intrusive_list_node.next_
        (intrusive_list_node.move H dst src)
        (intrusive_list_node.next_ (h src)) xs dst := by
      rw [hsnoc]
      exact (FChain_snoc _ _).mpr ⟨hnew1, hlast1⟩
    -- previous side
    have hrevne : xs.reverse ≠ [] := by simpa using hne
    have hlastrev : xs.headD src = lastOf src xs.reverse := by
      have h0 := headD_reverse src xs.reverse
      rwa [List.reverse_reverse] at h0
    have hsnocP := snoc_decomp src xs.reverse hrevne
    rw [← hlastrev] at hsnocP
    have hndrev : xs.reverse.Nodup := List.nodup_reverse.mpr hxnd
    have hnd3 : (xs.reverse.dropLast ++ [xs.headD src]).Nodup := by
      rw [← hsnocP]; exact hndrev
    obtain ⟨-, -, hdisj3⟩ := List.nodup_append.mp hnd3
    have hfhead : (h src).next_ = xs.headD src := hsrc.next_start
    have holdP : FChain intrusive_list_node.previous_ h
        (intrusive_list_node.previous_ (h src)) xs.reverse src := hsrc.2.2
    rw [hsnocP] at holdP
    obtain ⟨hinitP, -⟩ := (FChain_snoc _ _).mp holdP
    have hframe2 : ∀ x ∈ xs.reverse.dropLast,
        intrusive_list_node.previous_ ((intrusive_list_node.move H dst src) x) =
          intrusive_list_node.previous_ (h x) := by
      intro x hx
      have hxm : x ∈ xs := List.mem_reverse.mp
        ((List.dropLast_sublist xs.reverse).subset hx)
      have ha1 : ¬ x = src := fun he => hsx (by rw [← he]; exact hxm)
      have ha2 : ¬ x = (h src).next_ := fun he =>
        hdisj3 hx (by rw [← hfhead, ← he]; exact List.mem_singleton_self x)
      have ha3 : ¬ x = dst := fun he => hdx (by rw [← he]; exact hxm)
      rw [hEP x, if_neg ha1, if_neg ha2, if_neg ha3,
        hH x (List.mem_cons_of_mem _ hxm)]
    have hnewP := FChain_frame hframe2 hinitP
    have hlast2 : intrusive_list_node.previous_
        ((intrusive_list_node.move H dst src) (xs.headD src)) = dst := by
      have hhm : xs.headD src ∈ xs := headD_mem src xs hne
      have ha1 : ¬ xs.headD src = src := fun he => hsx (by rw [← he]; exact hhm)
      rw [hEP, if_neg ha1, hfhead, if_pos rfl]
    have hchainP : FChain intrusive_list_node.previous_
        (intrusive_list_node.move H dst src)
        (intrusive_list_node.previous_ (h src)) xs.reverse dst := by
      rw [hsnocP]
      exact (FChain_snoc _ _).mpr ⟨hnewP, hlast2⟩
    -- assemble
    refine ⟨⟨⟨rfl, ?_⟩, ⟨rfl, ?_⟩⟩, ⟨⟨rfl, ?_⟩, ⟨rfl, ?_⟩⟩⟩
    · have hd1 : intrusive_list_node.next_
          ((intrusive_list_node.move H dst src) dst) = (h src).next_ := by
        have ha2 : ¬ dst = (h src).previous_ := fun he =>
          hdx (by rw [he]; exact hbm)
        rw [hEN dst, if_neg hds, if_neg ha2, if_pos rfl]
      rw [hd1]
      exact hchain1
    · have hd2 : intrusive_list_node.previous_
          ((intrusive_list_node.move H dst src) dst) = (h src).previous_ := by
        have ha2 : ¬ dst = (h src).next_ := fun he =>
          hdx (by rw [he]; exact hfm)
        rw [hEP dst, if_neg hds, if_neg ha2, if_pos rfl]
      rw [hd2]
      exact hchainP
    · show intrusive_list_node.next_ _ = src
      rw [hEN src, if_pos rfl]
    · show intrusive_list_node.previous_ _ = src
      rw [hEP src, if_pos rfl]

/-- The empty list with header 0 and the list with header 1 holding nodes 2
and 3, built by two push_back calls on fresh nodes. -/
def moveDemoPre : Heap :=
  intrusive_list.push_back (intrusive_list.push_back initHeap 1 2) 1 3

/-- Witness for C8: move assigning the two element list with header 1 into
the empty list with header 0. -/
theorem claim_C8_container_move_witness :
    IsList (intrusive_list.move_assign moveDemoPre 0 1) 0 [2, 3] ∧
      IsList (intrusive_list.move_assign moveDemoPre 0 1) 1 [] :=
  claim_C8_container_move moveDemoPre 0 1 [] [2, 3]
    (by decide) (by decide) (by decide)
    (by intro a ha hb; simp at ha hb; omega)

theorem lastOf_irrel : ∀ (l : List Nat), l ≠ [] → ∀ d e : Nat,
    lastOf d l = lastOf e l
  | [], hne, _, _ => absurd rfl hne
  | [x], _, _, _ => rfl
  | x :: y :: rest, _, d, e => by
    rw [lastOf, lastOf]
    exact lastOf_irrel (y :: rest) (by simp) d e

theorem lastOf_cons_any (d x : Nat) (l : List Nat) :
    lastOf d (x :: l) = lastOf x l := by
  cases l with
  | nil => rfl
  | cons y rest =>
    rw [lastOf]
    exact lastOf_irrel (y :: rest) (by simp) d x

theorem lastOf_append_right (d : Nat) (l1 l2 : List Nat) (h2 : l2 ≠ []) :
    lastOf d (l1 ++ l2) = lastOf d l2 := by
  induction l1 with
  | nil => rfl
  | cons x rest ih =>
    rw [List.cons_append, lastOf_cons_any,
      lastOf_irrel (rest ++ l2) (fun hh => h2 (List.append_eq_nil.mp hh).2) x d,
      ih]

theorem lastOf_mem_cons (d : Nat) (l : List Nat) : lastOf d l ∈ d :: l := by
  by_cases hl : l = []
  · simp [hl, lastOf]
  · exact List.mem_cons_of_mem _ (lastOf_mem d l hl)

theorem lastOf_reverse (d : Nat) (l : List Nat) :
    lastOf d l.reverse = l.headD d := by
  have h0 := headD_reverse d l.reverse
  rw [List.reverse_reverse] at h0
  exact h0.symm

/-- Splice between two different lists: pos heads the cyclic chain
pos :: ws, last heads the cyclic chain last :: us ++ xs of which the nonempty
block xs, starting at first, is the half open range [first, last).  The
splice moves xs before pos, preserving order, and leaves the source chain
with exactly us. -/
theorem splice_cross (h : Heap) (pos last first : Nat) (ws us xs : List Nat)
    (hdst : IsList h pos ws) (hsrc : IsList h last (us ++ xs))
    (hxs : xs ≠ []) (hf : xs.headD last = first)
    (hnd1 : (pos :: ws).Nodup) (hnd2 : (last :: us ++ xs).Nodup)
    (hdisj : ∀ a, a ∈ pos :: ws → a ∈ last :: us ++ xs → False) :
    IsList (intrusive_list.splice h pos first last) pos (ws ++ xs) ∧
      IsList (intrusive_list.splice h pos first last) last us := by
  obtain ⟨hpos_nw, hndws⟩ := List.nodup_cons.mp hnd1
  obtain ⟨hlast_nm, hndux⟩ := List.nodup_cons.mp hnd2
  obtain ⟨hndus, hndxs, hdisjux⟩ := List.nodup_append.mp hndux
  have hm_first : first ∈ xs := by rw [← hf]; exact headD_mem last xs hxs
  have hm_bl : lastOf last xs ∈ xs := lastOf_mem last xs hxs
  have hm_bp : lastOf pos ws ∈ pos :: ws := lastOf_mem_cons pos ws
  have hm_bf : lastOf last us ∈ last :: us := lastOf_mem_cons last us
  have hDD : ∀ x, x ∈ pos :: ws → ∀ y, y ∈ last :: us ++ xs → ¬ x = y :=
    fun x hx y hy he => hdisj x hx (by rw [he]; exact hy)
  have hsrc_of_xs : ∀ y, y ∈ xs → y ∈ last :: us ++ xs :=
    fun y hy => List.mem_cons_of_mem _ (List.mem_append_right us hy)
  have hsrc_of_cus : ∀ y, y ∈ last :: us → y ∈ last :: us ++ xs := by
    intro y hy
    rcases List.mem_cons.mp hy with rfl | hy2
    · exact List.mem_cons_self _ _
    · exact List.mem_cons_of_mem _ (List.mem_append_left xs hy2)
  have hux_ne : ∀ x, x ∈ last :: us → ∀ y, y ∈ xs → ¬ x = y := by
    intro x hx y hy he
    rcases List.mem_cons.mp hx with rfl | hx2
    · exact hlast_nm (by rw [he]; exact List.mem_append_right us hy)
    · exact hdisjux hx2 (by rw [he]; exact hy)
  have hfl : first ≠ last := fun he =>
    hlast_nm (by rw [← he]; exact List.mem_append_right us hm_first)
  have hbp : (h pos).previous_ = lastOf pos ws := hdst.prev_start
  have hbl : (h last).previous_ = lastOf last xs := by
    rw [hsrc.prev_start, lastOf_append_right last us xs hxs]
  -- decompose the source rings
  have h1 : FChain intrusive_list_node.next_ h last ((last :: us) ++ xs) last := by
    rw [List.cons_append]; exact hsrc.1
  obtain ⟨c, hA0, hB0⟩ := (FChain_append _ _).mp h1
  have hc : c = first := by
    have h0 := FChain_start hB0
    rw [hf] at h0
    exact h0
  rw [hc] at hA0 hB0
  have h2 : FChain intrusive_list_node.previous_ h ((h last).previous_)
      (xs.reverse ++ us.reverse) last := by
    have h0 := hsrc.2
    rw [List.reverse_append] at h0
    exact h0.2
  obtain ⟨c2, hC0, hD0⟩ := (FChain_append _ _).mp h2
  have hxrev_ne : xs.reverse ≠ [] := by simpa using hxs
  have hrevdecomp : xs.reverse = xs.reverse.dropLast ++ [first] := by
    have hd := snoc_decomp last xs.reverse hxrev_ne
    rw [lastOf_reverse, hf] at hd
    exact hd
  rw [hrevdecomp] at hC0
  obtain ⟨hCinit, hCend⟩ := (FChain_snoc _ _).mp hC0
  have hbfval : (h first).previous_ = lastOf last us := by
    rw [hCend, FChain_start hD0, headD_reverse]
  have hc2 : c2 = lastOf last us := by rw [← hCend, hbfval]
  subst hc2
  rw [hbl] at hCinit
  -- pointwise evaluation with named boundary nodes
  have hEN : ∀ m, ((intrusive_list.splice h pos first last) m).next_ =
      if m = lastOf last xs then pos
      else if m = lastOf last us then last
      else if m = lastOf pos ws then first
      else (h m).next_ := by
    intro m
    rw [splice_next_ h pos first last hfl m, hbl, hbfval, hbp]
  have hEP : ∀ m, ((intrusive_list.splice h pos first last) m).previous_ =
      if m = last then lastOf last us
      else if m = first then lastOf pos ws
      else if m = pos then lastOf last xs
      else (h m).previous_ := by
    intro m
    rw [splice_previous_ h pos first last hfl m, hbl, hbfval, hbp]
  revert hEN hEP
  generalize intrusive_list.splice h pos first last = h9
  intro hEN hEP
  -- chain 1: from pos through its old ring, now ending at first
  have hdecomp1 : pos :: ws = (pos :: ws).dropLast ++ [lastOf pos ws] := by
    have h0 := snoc_decomp pos (pos :: ws) (by simp)
    rw [lastOf_cons_any] at h0
    exact h0
  have hold1 : FChain intrusive_list_node.next_ h pos (pos :: ws) pos := hdst.1
  rw [hdecomp1] at hold1
  obtain ⟨hinit1, -⟩ := (FChain_snoc _ _).mp hold1
  have hnd_d1 : ((pos :: ws).dropLast ++ [lastOf pos ws]).Nodup := by
    rw [← hdecomp1]; exact hnd1
  obtain ⟨-, -, hdj1⟩ := List.nodup_append.mp hnd_d1
  have hfr1 : ∀ x ∈ (pos :: ws).dropLast,
      intrusive_list_node.next_ (h9 x) = intrusive_list_node.next_ (h x) := by
    intro x hx
    have hxm : x ∈ pos :: ws := (List.dropLast_sublist _).subset hx
    rw [hEN x, if_neg (hDD x hxm _ (hsrc_of_xs _ hm_bl)),
      if_neg (hDD x hxm _ (hsrc_of_cus _ hm_bf)),
      if_neg (fun he => hdj1 hx (by rw [← he]; exact List.mem_singleton_self x))]
  have hnew1 := FChain_frame hfr1 hinit1
  have hb1 : intrusive_list_node.next_ (h9 (lastOf pos ws)) = first := by
    rw [hEN, if_neg (hDD _ hm_bp _ (hsrc_of_xs _ hm_bl)),
      if_neg (hDD _ hm_bp _ (hsrc_of_cus _ hm_bf)), if_pos rfl]
  have hchain1 : FChain intrusive_list_node.next_ h9 pos (pos :: ws) first := by
    rw [hdecomp1]
    exact (FChain_snoc _ _).mpr ⟨hnew1, hb1⟩
  -- chain 2: through xs, now ending at pos
  have hdecomp2 : xs = xs.dropLast ++ [lastOf last xs] := snoc_decomp last xs hxs
  have holdB := hB0
  rw [hdecomp2] at holdB
  obtain ⟨hinit2, -⟩ := (FChain_snoc _ _).mp holdB
  have hnd_d2 : (xs.dropLast ++ [lastOf last xs]).Nodup := by
    rw [← hdecomp2]; exact hndxs
  obtain ⟨-, -, hdj2⟩ := List.nodup_append.mp hnd_d2
  have hfr2 : ∀ x ∈ xs.dropLast,
      intrusive_list_node.next_ (h9 x) = intrusive_list_node.next_ (h x) := by
    intro x hx
    have hxm : x ∈ xs := (List.dropLast_sublist _).subset hx
    rw [hEN x,
      if_neg (fun he => hdj2 hx (by rw [← he]; exact List.mem_singleton_self x)),
      if_neg (fun he => hux_ne _ hm_bf _ hxm he.symm),
      if_neg (fun he => hDD _ hm_bp _ (hsrc_of_xs _ hxm) he.symm)]
  have hnew2 := FChain_frame hfr2 hinit2
  have hb2 : intrusive_list_node.next_ (h9 (lastOf last xs)) = pos := by
    rw [hEN, if_pos rfl]
  have hchain2 : FChain intrusive_list_node.next_ h9 first xs pos := by
    rw [hdecomp2]
    exact (FChain_snoc _ _).mpr ⟨hnew2, hb2⟩
  -- chain 3: destination previous ring, through reversed xs then reversed ws
  have hpos_ne_last : ¬ pos = last :=
    hDD pos (List.mem_cons_self _ _) last (List.mem_cons_self _ _)
  have hpos_ne_first : ¬ pos = first :=
    hDD pos (List.mem_cons_self _ _) first (hsrc_of_xs _ hm_first)
  have hposprev : intrusive_list_node.previous_ (h9 pos) = lastOf last xs := by
    rw [hEP pos, if_neg hpos_ne_last, if_neg hpos_ne_first, if_pos rfl]
  have hnd_d3 : (xs.reverse.dropLast ++ [first]).Nodup := by
    rw [← hrevdecomp]; exact List.nodup_reverse.mpr hndxs
  obtain ⟨-, -, hdj3⟩ := List.nodup_append.mp hnd_d3
  have hfr3 : ∀ x ∈ xs.reverse.dropLast,
      intrusive_list_node.previous_ (h9 x) =
        intrusive_list_node.previous_ (h x) := by
    intro x hx
    have hxm : x ∈ xs := List.mem_reverse.mp
      ((List.dropLast_sublist _).subset hx)
    rw [hEP x,
      if_neg (fun he => hux_ne _ (List.mem_cons_self _ _) _ hxm he.symm),
      if_neg (fun he => hdj3 hx (by rw [← he]; exact List.mem_singleton_self x)),
      if_neg (fun he => hDD pos (List.mem_cons_self _ _) _
        (hsrc_of_xs _ hxm) he.symm)]
  have hnew3 := FChain_frame hfr3 hCinit
  have hb3 : intrusive_list_node.previous_ (h9 first) = lastOf pos ws := by
    rw [hEP, if_neg hfl, if_pos rfl]
  have hchain3 : FChain intrusive_list_node.previous_ h9 (lastOf last xs)
      xs.reverse (lastOf pos ws) := by
    rw [hrevdecomp]
    exact (FChain_snoc _ _).mpr ⟨hnew3, hb3⟩
  -- chain 4: reversed ws is untouched
  have hold4 : FChain intrusive_list_node.previous_ h (lastOf pos ws)
      ws.reverse pos := by
    have h0 := hdst.2.2
    rwa [hbp] at h0
  have hfr4 : ∀ x ∈ ws.reverse,
      intrusive_list_node.previous_ (h9 x) =
        intrusive_list_node.previous_ (h x) := by
    intro x hx
    have hxm : x ∈ ws := List.mem_reverse.mp hx
    have hxm2 : x ∈ pos :: ws := List.mem_cons_of_mem _ hxm
    rw [hEP x, if_neg (hDD x hxm2 _ (List.mem_cons_self _ _)),
      if_neg (hDD x hxm2 _ (hsrc_of_xs _ hm_first)),
      if_neg (fun he => hpos_nw (by rw [← he]; exact hxm))]
  have hchain4 := FChain_frame hfr4 hold4
  -- chain 5: source next ring keeps us
  have hdecomp5 : last :: us = (last :: us).dropLast ++ [lastOf last us] := by
    have h0 := snoc_decomp last (last :: us) (by simp)
    rw [lastOf_cons_any] at h0
    exact h0
  have hold5 := hA0
  rw [hdecomp5] at hold5
  obtain ⟨hinit5, -⟩ := (FChain_snoc _ _).mp hold5
  have hnd_cus : (last :: us).Nodup := by
    refine List.Nodup.sublist ?_ hnd2
    exact List.Sublist.cons₂ last (List.sublist_append_left us xs)
  have hnd_d5 : ((last :: us).dropLast ++ [lastOf last us]).Nodup := by
    rw [← hdecomp5]; exact hnd_cus
  obtain ⟨-, -, hdj5⟩ := List.nodup_append.mp hnd_d5
  have hfr5 : ∀ x ∈ (last :: us).dropLast,
      intrusive_list_node.next_ (h9 x) = intrusive_list_node.next_ (h x) := by
    intro x hx
    have hxm : x ∈ last :: us := (List.dropLast_sublist _).subset hx
    rw [hEN x, if_neg (hux_ne x hxm _ hm_bl),
      if_neg (fun he => hdj5 hx (by rw [← he]; exact List.mem_singleton_self x)),
      if_neg (fun he => hDD _ hm_bp _ (hsrc_of_cus _ hxm) he.symm)]
  have hnew5 := FChain_frame hfr5 hinit5
  have hb5 : intrusive_list_node.next_ (h9 (lastOf last us)) = last := by
    rw [hEN, if_neg (hux_ne _ hm_bf _ hm_bl), if_pos rfl]
  have hchain5 : FChain intrusive_list_node.next_ h9 last (last :: us) last := by
    rw [hdecomp5]
    exact (FChain_snoc _ _).mpr ⟨hnew5, hb5⟩
  -- chain 6: source previous ring keeps reversed us
  have hfr6 : ∀ x ∈ us.reverse,
      intrusive_list_node.previous_ (h9 x) =
        intrusive_list_node.previous_ (h x) := by
    intro x hx
    have hxm : x ∈ us := List.mem_reverse.mp hx
    have hxm2 : x ∈ last :: us := List.mem_cons_of_mem _ hxm
    have hlne : ¬ x = last := fun he =>
      (List.nodup_cons.mp hnd_cus).1 (by rw [← he]; exact hxm)
    rw [hEP x, if_neg hlne,
      if_neg (fun he => hux_ne x hxm2 first hm_first he),
      if_neg (fun he => hDD pos (List.mem_cons_self _ _) x
        (hsrc_of_cus _ hxm2) he.symm)]
  have hchain6 := FChain_frame hfr6 hD0
  have hlastprev : intrusive_list_node.previous_ (h9 last) = lastOf last us := by
    rw [hEP, if_pos rfl]
  -- assemble
  refine ⟨⟨?_, ?_⟩, ⟨?_, ?_⟩⟩
  · have h0 : FChain intrusive_list_node.next_ h9 pos ((pos :: ws) ++ xs) pos :=
      (FChain_append _ _).mpr ⟨first, hchain1, hchain2⟩
    rwa [List.cons_append] at h0
  · refine ⟨rfl, ?_⟩
    rw [hposprev, List.reverse_append]
    exact (FChain_append _ _).mpr ⟨lastOf pos ws, hchain3, hchain4⟩
  · exact hchain5
  · exact ⟨rfl, by rw [hlastprev]; exact hchain6⟩

theorem headD_irrel (l : List Nat) (hne : l ≠ []) (d e : Nat) :
    l.headD d = l.headD e := by
  cases l with
  | nil => exact absurd rfl hne
  | cons x rest => rfl

/-- Splice within a single list: the cyclic chain of pos is
pos :: as ++ xs ++ bs, the nonempty block xs starting at first is the half
open range [first, last) and last is the head of the nonempty block bs, so
pos lies strictly outside the closed range [first, last].  The splice moves
xs directly before pos, preserving order and dropping nothing. -/
theorem splice_same (h : Heap) (pos first last : Nat) (as xs bs : List Nat)
    (hring : IsList h pos (as ++ xs ++ bs))
    (hxs : xs ≠ []) (hbs : bs ≠ [])
    (hf : xs.headD pos = first) (hl : bs.headD pos = last)
    (hnd : (pos :: as ++ xs ++ bs).Nodup) :
    IsList (intrusive_list.splice h pos first last) pos (as ++ bs ++ xs) := by
  obtain ⟨hpos_nm, hnd0⟩ := List.nodup_cons.mp hnd
  obtain ⟨hndaxs, hndbs, hdj2⟩ := List.nodup_append.mp hnd0
  obtain ⟨hndas, hndxs, hdj1⟩ := List.nodup_append.mp hndaxs
  have hpx : pos ∉ xs := fun hm =>
    hpos_nm (List.mem_append_left bs (List.mem_append_right as hm))
  have hpa : pos ∉ as := fun hm =>
    hpos_nm (List.mem_append_left bs (List.mem_append_left xs hm))
  have hpb : pos ∉ bs := fun hm => hpos_nm (List.mem_append_right _ hm)
  have hPA : ∀ x, x ∈ pos :: as → ∀ y, y ∈ xs → ¬ x = y := by
    intro x hx y hy he
    rcases List.mem_cons.mp hx with rfl | hx2
    · exact hpx (by rw [he]; exact hy)
    · exact hdj1 hx2 (by rw [he]; exact hy)
  have hPB : ∀ x, x ∈ pos :: as → ∀ y, y ∈ bs → ¬ x = y := by
    intro x hx y hy he
    rcases List.mem_cons.mp hx with rfl | hx2
    · exact hpb (by rw [he]; exact hy)
    · exact hdj2 (List.mem_append_left xs hx2) (by rw [he]; exact hy)
  have hXB : ∀ x, x ∈ xs → ∀ y, y ∈ bs → ¬ x = y := by
    intro x hx y hy he
    exact hdj2 (List.mem_append_right as hx) (by rw [he]; exact hy)
  have hm_first : first ∈ xs := by rw [← hf]; exact headD_mem pos xs hxs
  have hm_last : last ∈ bs := by rw [← hl]; exact headD_mem pos bs hbs
  have hm_blx : lastOf pos xs ∈ xs := lastOf_mem pos xs hxs
  have hm_bpb : lastOf pos bs ∈ bs := lastOf_mem pos bs hbs
  have hm_bfA : lastOf pos as ∈ pos :: as := lastOf_mem_cons pos as
  have hfl : first ≠ last := hXB first hm_first last hm_last
  have hxb_ne : xs ++ bs ≠ [] :=
    fun hh => hxs (List.append_eq_nil.mp hh).1
  have hbp : (h pos).previous_ = lastOf pos bs := by
    rw [hring.prev_start, List.append_assoc,
      lastOf_append_right pos as (xs ++ bs) hxb_ne,
      lastOf_append_right pos xs bs hbs]
  -- next ring decomposition
  have h1 : FChain intrusive_list_node.next_ h pos
      ((pos :: as) ++ (xs ++ bs)) pos := by
    rw [← List.append_assoc, List.cons_append]
    exact hring.1
  obtain ⟨c1, hA0, hR0⟩ := (FChain_append _ _).mp h1
  have hc1 : c1 = first := by
    have h0 := FChain_start hR0
    rw [headD_append_of_ne_nil pos xs bs hxs, hf] at h0
    exact h0
  rw [hc1] at hA0 hR0
  obtain ⟨c2, hB0, hC0⟩ := (FChain_append _ _).mp hR0
  have hc2 : c2 = last := by
    have h0 := FChain_start hC0
    rw [hl] at h0
    exact h0
  rw [hc2] at hB0 hC0
  -- previous ring decomposition
  have h2 : FChain intrusive_list_node.previous_ h ((h pos).previous_)
      (bs.reverse ++ (xs.reverse ++ as.reverse)) pos := by
    have h0 := hring.2.2
    rw [List.append_assoc, List.reverse_append, List.reverse_append,
      List.append_assoc] at h0
    exact h0
  obtain ⟨d1, hD0, hS0⟩ := (FChain_append _ _).mp h2
  obtain ⟨d2, hE0, hF0⟩ := (FChain_append _ _).mp hS0
  have hxrev_ne : xs.reverse ≠ [] := by simpa using hxs
  have hbrev_ne : bs.reverse ≠ [] := by simpa using hbs
  have harev_decomp : xs.reverse = xs.reverse.dropLast ++ [first] := by
    have hd := snoc_decomp pos xs.reverse hxrev_ne
    rw [lastOf_reverse, hf] at hd
    exact hd
  have hbrev_decomp : bs.reverse = bs.reverse.dropLast ++ [last] := by
    have hd := snoc_decomp pos bs.reverse hbrev_ne
    rw [lastOf_reverse, hl] at hd
    exact hd
  have hd1 : d1 = lastOf pos xs := by
    have h0 := FChain_start hE0
    rw [headD_irrel xs.reverse hxrev_ne d2 pos, headD_reverse] at h0
    exact h0
  rw [hd1] at hD0 hE0
  have hd2 : d2 = lastOf pos as := by
    have h0 := FChain_start hF0
    rw [headD_reverse] at h0
    exact h0
  rw [hd2] at hE0 hF0
  -- boundary field values
  rw [hbp] at hD0
  rw [hbrev_decomp] at hD0
  obtain ⟨hD0init, hblval⟩ := (FChain_snoc _ _).mp hD0
  rw [harev_decomp] at hE0
  obtain ⟨hE0init, hbfval⟩ := (FChain_snoc _ _).mp hE0
  -- pointwise evaluation
  have hEN : ∀ m, ((intrusive_list.splice h pos first last) m).next_ =
      if m = lastOf pos xs then pos
      else if m = lastOf pos as then last
      else if m = lastOf pos bs then first
      else (h m).next_ := by
    intro m
    rw [splice_next_ h pos first last hfl m, hblval, hbfval, hbp]
  have hEP : ∀ m, ((intrusive_list.splice h pos first last) m).previous_ =
      if m = last then lastOf pos as
      else if m = first then lastOf pos bs
      else if m = pos then lastOf pos xs
      else (h m).previous_ := by
    intro m
    rw [splice_previous_ h pos first last hfl m, hblval, hbfval, hbp]
  revert hEN hEP
  generalize intrusive_list.splice h pos first last = h9
  intro hEN hEP
  -- nodup for the three snoc decompositions
  have hndpa : (pos :: as).Nodup := by
    refine List.Nodup.sublist ?_ hnd
    exact List.Sublist.cons₂ pos
      ((List.sublist_append_left as xs).trans (List.sublist_append_left _ bs))
  have hdecompA : pos :: as = (pos :: as).dropLast ++ [lastOf pos as] := by
    have h0 := snoc_decomp pos (pos :: as) (by simp)
    rw [lastOf_cons_any] at h0
    exact h0
  have hnd_dA : ((pos :: as).dropLast ++ [lastOf pos as]).Nodup := by
    rw [← hdecompA]; exact hndpa
  obtain ⟨-, -, hdjA⟩ := List.nodup_append.mp hnd_dA
  have hdecompX : xs = xs.dropLast ++ [lastOf pos xs] := snoc_decomp pos xs hxs
  have hnd_dX : (xs.dropLast ++ [lastOf pos xs]).Nodup := by
    rw [← hdecompX]; exact hndxs
  obtain ⟨-, -, hdjX⟩ := List.nodup_append.mp hnd_dX
  have hdecompB : bs = bs.dropLast ++ [lastOf pos bs] := snoc_decomp pos bs hbs
  have hnd_dB : (bs.dropLast ++ [lastOf pos bs]).Nodup := by
    rw [← hdecompB]; exact hndbs
  obtain ⟨-, -, hdjB⟩ := List.nodup_append.mp hnd_dB
  have hnd_dXr : (xs.reverse.dropLast ++ [first]).Nodup := by
    rw [← harev_decomp]; exact List.nodup_reverse.mpr hndxs
  obtain ⟨-, -, hdjXr⟩ := List.nodup_append.mp hnd_dXr
  have hnd_dBr : (bs.reverse.dropLast ++ [last]).Nodup := by
    rw [← hbrev_decomp]; exact List.nodup_reverse.mpr hndbs
  obtain ⟨-, -, hdjBr⟩ := List.nodup_append.mp hnd_dBr
  -- next chain through pos :: as, now ending at last
  rw [hdecompA] at hA0
  obtain ⟨hA0init, -⟩ := (FChain_snoc _ _).mp hA0
  have hfrA : ∀ x ∈ (pos :: as).dropLast,
      intrusive_list_node.next_ (h9 x) = intrusive_list_node.next_ (h x) := by
    intro x hx
    have hxm : x ∈ pos :: as := (List.dropLast_sublist _).subset hx
    rw [hEN x, if_neg (hPA x hxm _ hm_blx),
      if_neg (fun he => hdjA hx (by rw [← he]; exact List.mem_singleton_self x)),
      if_neg (hPB x hxm _ hm_bpb)]
  have hnewA := FChain_frame hfrA hA0init
  have hbA : intrusive_list_node.next_ (h9 (lastOf pos as)) = last := by
    rw [hEN, if_neg (hPA _ hm_bfA _ hm_blx), if_pos rfl]
  have hchainA : FChain intrusive_list_node.next_ h9 pos (pos :: as) last := by
    rw [hdecompA]
    exact (FChain_snoc _ _).mpr ⟨hnewA, hbA⟩
  -- next chain through bs, now ending at first
  rw [hdecompB] at hC0
  obtain ⟨hC0init, -⟩ := (FChain_snoc _ _).mp hC0
  have hfrB : ∀ x ∈ bs.dropLast,
      intrusive_list_node.next_ (h9 x) = intrusive_list_node.next_ (h x) := by
    intro x hx
    have hxm : x ∈ bs := (List.dropLast_sublist _).subset hx
    rw [hEN x, if_neg (fun he => hXB _ hm_blx _ hxm he.symm),
      if_neg (fun he => hPB _ hm_bfA _ hxm he.symm),
      if_neg (fun he => hdjB hx (by rw [← he]; exact List.mem_singleton_self x))]
  have hnewB := FChain_frame hfrB hC0init
  have hbB : intrusive_list_node.next_ (h9 (lastOf pos bs)) = first := by
    rw [hEN, if_neg (fun he => hXB _ hm_blx _ hm_bpb he.symm),
      if_neg (fun he => hPB _ hm_bfA _ hm_bpb he.symm), if_pos rfl]
  have hchainB : FChain intrusive_list_node.next_ h9 last bs first := by
    rw [hdecompB]
    exact (FChain_snoc _ _).mpr ⟨hnewB, hbB⟩
  -- next chain through xs, now ending at pos
  rw [hdecompX] at hB0
  obtain ⟨hB0init, -⟩ := (FChain_snoc _ _).mp hB0
  have hfrX : ∀ x ∈ xs.dropLast,
      intrusive_list_node.next_ (h9 x) = intrusive_list_node.next_ (h x) := by
    intro x hx
    have hxm : x ∈ xs := (List.dropLast_sublist _).subset hx
    rw [hEN x,
      if_neg (fun he => hdjX hx (by rw [← he]; exact List.mem_singleton_self x)),
      if_neg (fun he => hPA _ hm_bfA _ hxm he.symm),
      if_neg (hXB x hxm _ hm_bpb)]
  have hnewX := FChain_frame hfrX hB0init
  have hbX : intrusive_list_node.next_ (h9 (lastOf pos xs)) = pos := by
    rw [hEN, if_pos rfl]
  have hchainX : FChain intrusive_list_node.next_ h9 first xs pos := by
    rw [hdecompX]
    exact (FChain_snoc _ _).mpr ⟨hnewX, hbX⟩
  -- previous chain through reversed xs, ending at the end of bs
  have hfrXr : ∀ x ∈ xs.reverse.dropLast,
      intrusive_list_node.previous_ (h9 x) =
        intrusive_list_node.previous_ (h x) := by
    intro x hx
    have hxm : x ∈ xs := List.mem_reverse.mp
      ((List.dropLast_sublist _).subset hx)
    rw [hEP x, if_neg (hXB x hxm _ hm_last),
      if_neg (fun he => hdjXr hx (by rw [← he]; exact List.mem_singleton_self x)),
      if_neg (fun he => hPA pos (List.mem_cons_self _ _) x hxm he.symm)]
  have hnewXr := FChain_frame hfrXr hE0init
  have hbXr : intrusive_list_node.previous_ (h9 first) = lastOf pos bs := by
    rw [hEP, if_neg hfl, if_pos rfl]
  have hchainXr : FChain intrusive_list_node.previous_ h9 (lastOf pos xs)
      xs.reverse (lastOf pos bs) := by
    rw [harev_decomp]
    exact (FChain_snoc _ _).mpr ⟨hnewXr, hbXr⟩
  -- previous chain through reversed bs, ending at the end of as
  have hfrBr : ∀ x ∈ bs.reverse.dropLast,
      intrusive_list_node.previous_ (h9 x) =
        intrusive_list_node.previous_ (h x) := by
    intro x hx
    have hxm : x ∈ bs := List.mem_reverse.mp
      ((List.dropLast_sublist _).subset hx)
    rw [hEP x,
      if_neg (fun he => hdjBr hx (by rw [← he]; exact List.mem_singleton_self x)),
      if_neg (fun he => hXB _ hm_first _ hxm he.symm),
      if_neg (fun he => hPB pos (List.mem_cons_self _ _) x hxm he.symm)]
  have hnewBr := FChain_frame hfrBr hD0init
  have hbBr : intrusive_list_node.previous_ (h9 last) = lastOf pos as := by
    rw [hEP, if_pos rfl]
  have hchainBr : FChain intrusive_list_node.previous_ h9 (lastOf pos bs)
      bs.reverse (lastOf pos as) := by
    rw [hbrev_decomp]
    exact (FChain_snoc _ _).mpr ⟨hnewBr, hbBr⟩
  -- previous chain through reversed as, untouched
  have hfrAr : ∀ x ∈ as.reverse,
      intrusive_list_node.previous_ (h9 x) =
        intrusive_list_node.previous_ (h x) := by
    intro x hx
    have hxm : x ∈ as := List.mem_reverse.mp hx
    have hxm2 : x ∈ pos :: as := List.mem_cons_of_mem _ hxm
    rw [hEP x, if_neg (hPB x hxm2 _ hm_last), if_neg (hPA x hxm2 _ hm_first),
      if_neg (fun he => hpa (by rw [← he]; exact hxm))]
  have hchainAr := FChain_frame hfrAr hF0
  -- assemble
  have hposprev : intrusive_list_node.previous_ (h9 pos) = lastOf pos xs := by
    rw [hEP pos, if_neg (hPB pos (List.mem_cons_self _ _) _ hm_last),
      if_neg (hPA pos (List.mem_cons_self _ _) _ hm_first), if_pos rfl]
  constructor
  · have h0 : FChain intrusive_list_node.next_ h9 pos
        ((pos :: as) ++ (bs ++ xs)) pos :=
      (FChain_append _ _).mpr ⟨last, hchainA,
        (FChain_append _ _).mpr ⟨first, hchainB, hchainX⟩⟩
    rw [List.cons_append, ← List.append_assoc] at h0
    exact h0
  · refine ⟨rfl, ?_⟩
    rw [hposprev, List.append_assoc, List.reverse_append, List.reverse_append,
      List.append_assoc]
    exact (FChain_append _ _).mpr ⟨lastOf pos bs, hchainXr,
      (FChain_append _ _).mpr ⟨lastOf pos as, hchainBr, hchainAr⟩⟩

/-- Source lines 334-336: splice(pos, other) forwards to
splice(pos, other.begin(), other.end()), i.e. first is other.data_.next_ and
last is the other header itself. -/
def intrusive_list.splice_other (h : Heap) (pos oHd : Nat) : Heap :=
  intrusive_list.splice h pos ((h oHd).next_) oHd

theorem splice_other_correct (h : Heap) (pos oHd : Nat) (ws xs : List Nat)
    (hdst : IsList h pos ws) (hsrc : IsList h oHd xs)
    (hnd1 : (pos :: ws).Nodup) (hnd2 : (oHd :: xs).Nodup)
    (hdisj : ∀ a, a ∈ pos :: ws → a ∈ oHd :: xs → False) :
    IsList (intrusive_list.splice_other h pos oHd) pos (ws ++ xs) ∧
      IsList (intrusive_list.splice_other h pos oHd) oHd [] := by
  rw [intrusive_list.splice_other]
  by_cases hxs : xs = []
  · subst hxs
    have hsn : (h oHd).next_ = oHd := by simpa using hsrc.next_start
    rw [hsn, intrusive_list.splice, if_pos rfl]
    exact ⟨by simpa using hdst, hsrc⟩
  · have hf : xs.headD oHd = (h oHd).next_ := hsrc.next_start.symm
    exact splice_cross h pos oHd ((h oHd).next_) ws [] xs hdst
      (by simpa using hsrc) hxs hf hnd1 (by simpa using hnd2)
      (by simpa using hdisj)

/-- C9 (amended): splice(pos, first, last) moves exactly the nodes of the
half open range [first, last) to sit directly before pos, preserving their
relative order, with no node dropped or duplicated and the source chain kept
contiguous and correctly linked, provided pos lies outside the closed range
[first, last].  For a splice between two distinct lists this proviso always
holds and the first conjunct states the original claim; within a single list
the second conjunct states it for every position of pos other than inside
the range or equal to last (the counterexample shows pos = last corrupts the
list).  The third conjunct: splice(pos, otherList) moves the entire contents
of the other container before pos and leaves that container empty. -/
theorem claim_C9_splice_amended :
    (∀ (h : Heap) (pos last first : Nat) (ws us xs : List Nat),
        IsList h pos ws → IsList h last (us ++ xs) → xs ≠ [] →
        xs.headD last = first → (pos :: ws).Nodup →
        (last :: us ++ xs).Nodup →
        (∀ a, a ∈ pos :: ws → a ∈ last :: us ++ xs → False) →
        IsList (intrusive_list.splice h pos first last) pos (ws ++ xs) ∧
          IsList (intrusive_list.splice h pos first last) last us) ∧
    (∀ (h : Heap) (pos first last : Nat) (as xs bs : List Nat),
        IsList h pos (as ++ xs ++ bs) → xs ≠ [] → bs ≠ [] →
        xs.headD pos = first → bs.headD pos = last →
        (pos :: as ++ xs ++ bs).Nodup →
        IsList (intrusive_list.splice h pos first last) pos (as ++ bs ++ xs)) ∧
    (∀ (h : Heap) (pos oHd : Nat) (ws xs : List Nat),
        IsList h pos ws → IsList h oHd xs → (pos :: ws).Nodup →
        (oHd :: xs).Nodup →
        (∀ a, a ∈ pos :: ws → a ∈ oHd :: xs → False) →
        IsList (intrusive_list.splice_other h pos oHd) pos (ws ++ xs) ∧
          IsList (intrusive_list.splice_other h pos oHd) oHd []) :=
  ⟨fun h pos last first ws us xs h1 h2 h3 h4 h5 h6 h7 =>
      splice_cross h pos last first ws us xs h1 h2 h3 h4 h5 h6 h7,
    fun h pos first last as xs bs h1 h2 h3 h4 h5 h6 =>
      splice_same h pos first last as xs bs h1 h2 h3 h4 h5 h6,
    fun h pos oHd ws xs h1 h2 h3 h4 h5 =>
      splice_other_correct h pos oHd ws xs h1 h2 h3 h4 h5⟩

/-- A heap with two lists: header 0 holding node 3, header 4 holding nodes
1 and 2, built by push_back calls on fresh nodes. -/
def spliceDemoPre : Heap :=
  intrusive_list.push_back
    (intrusive_list.push_back (intrusive_list.push_back initHeap 0 3) 4 1) 4 2

/-- A heap with one list: header 0 holding nodes 1, 2, 3 in order. -/
def ringFour : Heap :=
  intrusive_list.push_back
    (intrusive_list.push_back (intrusive_list.push_back initHeap 0 1) 0 2) 0 3

/-- Witness for C9: a cross list splice of the range of nodes 1, 2 before
node 3, a same list splice of node 1 before the header 0 (i.e. to the back),
and a whole container splice. -/
theorem claim_C9_splice_amended_witness :
    (IsList (intrusive_list.splice spliceDemoPre 3 1 4) 3 ([0] ++ [1, 2]) ∧
      IsList (intrusive_list.splice spliceDemoPre 3 1 4) 4 []) ∧
    IsList (intrusive_list.splice ringFour 0 1 2) 0 ([] ++ [2, 3] ++ [1]) ∧
    (IsList (intrusive_list.splice_other spliceDemoPre 3 4) 3 ([0] ++ [1, 2]) ∧
      IsList (intrusive_list.splice_other spliceDemoPre 3 4) 4 []) :=
  ⟨claim_C9_splice_amended.1 spliceDemoPre 3 4 1 [0] [] [1, 2]
      (by decide) (by decide) (by decide) (by decide) (by decide) (by decide)
      (by intro a ha hb; simp at ha hb; omega),
    claim_C9_splice_amended.2.1 ringFour 0 1 2 [] [1] [2, 3]
      (by decide) (by decide) (by decide) (by decide) (by decide) (by decide),
    claim_C9_splice_amended.2.2 spliceDemoPre 3 4 [0] [1, 2]
      (by decide) (by decide) (by decide) (by decide)
      (by intro a ha hb; simp at ha hb; omega)⟩

end Fpl
